import Mathlib

/-!
# Dictionary service: store, JSON persistence and HTTP handlers

A shallow embedding of `dictionary/dictionary.go`.

* A Go `string` held by the store is a sequence of Unicode scalar values
  (`List Char`): every string that reaches the store was produced by
  `encoding/json`, which always yields valid UTF-8.
* A slice `[]Entry` is `Option (List Entry)`: `none` is the nil slice, `some []`
  the empty non-nil slice (they marshal to `null` and `[]`). The store keeps, next
  to the sequence, the slots of the backing array past the length, which `append`
  and `json.Unmarshal` reuse.
* `sync.Mutex` is a boolean; `Lock` on a held mutex never returns, which a run
  reports as `Run.blocked`.
* The file at `filePath` is a field of the state, together with the outcome the
  next write will have. File contents, request bodies and query values are
  sequences of Unicode scalar values as well.
* Requests are run one at a time: a handler is a function from the state and the
  request to the response and the next state, or to the state it blocks in.
-/

namespace Dictionary

/-- Go strings of the store: sequences of Unicode scalar values. -/
abbrev GoString := List Char

/-- The record `Entry` with its two JSON fields `mot` and `definition`. -/
structure Entry where
  Mot : GoString
  Definition : GoString
deriving DecidableEq, Repr

/-- The zero value of `Entry`. -/
def Entry.zero : Entry := ⟨[], []⟩

/-- A slice of entries; `none` is the nil slice. -/
abbrev Entries := Option (List Entry)

/-- The elements of a slice, in order. -/
def elems (s : Entries) : List Entry := s.getD []

/-- Go `append(s, e)`: the result is never nil. -/
def goAppend (s : Entries) (e : Entry) : Entries := some (elems s ++ [e])

/-! ## `strings.TrimSpace` and `strings.ToLower` -/

/-- The predicate `unicode.IsSpace`: the code points with the White_Space property. -/
def isSpace (c : Char) : Bool :=
  let n := c.toNat
  (0x09 ≤ n && n ≤ 0x0d) || n == 0x20 || n == 0x85 || n == 0xa0 || n == 0x1680 ||
  (0x2000 ≤ n && n ≤ 0x200a) || n == 0x2028 || n == 0x2029 || n == 0x202f ||
  n == 0x205f || n == 0x3000

/-- Drop the leading white space of a string. -/
def trimLeft : GoString → GoString
  | [] => []
  | c :: cs => if isSpace c then trimLeft cs else c :: cs

/-- The function `strings.TrimSpace`: leading and trailing white space removed. -/
def TrimSpace (s : GoString) : GoString :=
  (trimLeft (trimLeft s).reverse).reverse

/-- The function `strings.ToLower`, rune by rune; `lower` is the table `unicode.ToLower`. -/
def ToLower (lower : Char → Char) (s : GoString) : GoString := s.map lower

/-! ## `encoding/json`: encoding -/

/-- The digit table `"0123456789abcdef"` of the encoder. -/
def hexDigit (n : Nat) : Char :=
  ['0', '1', '2', '3', '4', '5', '6', '7', '8', '9', 'a', 'b', 'c', 'd', 'e', 'f'].getD n '0'

/-- The table `htmlSafeSet`: ASCII printable characters except the quote, the
backslash and the three HTML characters. -/
def htmlSafe (c : Char) : Bool :=
  0x20 ≤ c.toNat && c.toNat < 0x80 &&
    c != '"' && c != '\\' && c != '<' && c != '>' && c != '&'

/-- What `appendString` (with HTML escaping on) emits for one character. -/
def escapeChar (c : Char) : List Char :=
  if c.toNat < 0x80 then
    if htmlSafe c then [c]
    else if c = '\\' ∨ c = '"' then ['\\', c]
    else if c = '\x08' then ['\\', 'b']
    else if c = '\x0c' then ['\\', 'f']
    else if c = '\n' then ['\\', 'n']
    else if c = '\r' then ['\\', 'r']
    else if c = '\t' then ['\\', 't']
    else ['\\', 'u', '0', '0', hexDigit (c.toNat / 16), hexDigit (c.toNat % 16)]
  else if c.toNat = 0x2028 ∨ c.toNat = 0x2029 then
    ['\\', 'u', '2', '0', '2', hexDigit (c.toNat % 16)]
  else [c]

/-- All characters of a string, escaped. -/
def escapeAll : GoString → List Char
  | [] => []
  | c :: cs => escapeChar c ++ escapeAll cs

/-- The encoder `appendString`: a JSON string literal. -/
def appendString (s : GoString) : List Char :=
  '"' :: (escapeAll s ++ ['"'])

/-- The keys of an entry, as the encoder writes them. -/
def keyMot : List Char := ['"', 'm', 'o', 't', '"']

/-- The key `"definition"` with its quotes. -/
def keyDefinition : List Char :=
  ['"', 'd', 'e', 'f', 'i', 'n', 'i', 't', 'i', 'o', 'n', '"']

/-- Compact encoding of one entry. -/
def marshalEntry (e : Entry) : List Char :=
  ['\x7b'] ++ keyMot ++ [':'] ++ appendString e.Mot ++ [','] ++
    keyDefinition ++ [':'] ++ appendString e.Definition ++ ['\x7d']

/-- Compact encodings of the elements, separated by commas. -/
def marshalElems : List Entry → List Char
  | [] => []
  | [e] => marshalEntry e
  | e :: es => marshalEntry e ++ [','] ++ marshalElems es

/-- The compact JSON text of a slice: `null` for the nil slice. -/
def compactJSON (s : Entries) : List Char :=
  match s with
  | none => ['n', 'u', 'l', 'l']
  | some es => ['['] ++ marshalElems es ++ [']']

/-- The call `json.Marshal(d.entries)`; it cannot fail on a slice of entries. -/
def Marshal (s : Entries) : Except GoString (List Char) := .ok (compactJSON s)

/-- Indented encoding of one entry at depth one. -/
def indentEntry (e : Entry) : List Char :=
  ['\x7b', '\n', ' ', ' ', ' ', ' '] ++ keyMot ++ [':', ' '] ++ appendString e.Mot ++
    [',', '\n', ' ', ' ', ' ', ' '] ++ keyDefinition ++ [':', ' '] ++
    appendString e.Definition ++ ['\n', ' ', ' ', '\x7d']

/-- Indented encodings of the elements, each followed by a line break. -/
def indentElems : List Entry → List Char
  | [] => []
  | [e] => indentEntry e ++ ['\n']
  | e :: es => indentEntry e ++ [',', '\n', ' ', ' '] ++ indentElems es

/-- The indented JSON text of a slice: the compact text re-indented with two
spaces per level; an empty array stays `[]`. -/
def indentJSON (s : Entries) : List Char :=
  match s with
  | none => ['n', 'u', 'l', 'l']
  | some [] => ['[', ']']
  | some es => ['[', '\n', ' ', ' '] ++ indentElems es ++ [']']

/-- The call `json.MarshalIndent(d.entries, "", "  ")`; it cannot fail on a slice
of entries. -/
def MarshalIndent (s : Entries) : Except GoString (List Char) := .ok (indentJSON s)

/-- The JSON text of the map `{"mot": word, "definition": definition}`: the keys
of a map are written in sorted order. -/
def responseJSON (word definition : GoString) : List Char :=
  ['\x7b'] ++ keyDefinition ++ [':'] ++ appendString definition ++ [','] ++
    keyMot ++ [':'] ++ appendString word ++ ['\x7d']

/-- The call `json.Marshal(map[string]string{"mot": word, "definition": definition})`. -/
def marshalResponse (word definition : GoString) : Except GoString (List Char) :=
  .ok (responseJSON word definition)

/-! ## `encoding/json`: decoding -/

/-- A parsed JSON value; a number keeps its text. -/
inductive JValue where
  | null : JValue
  | bool (b : Bool) : JValue
  | num (raw : List Char) : JValue
  | str (s : GoString) : JValue
  | arr (xs : List JValue) : JValue
  | obj (kvs : List (GoString × JValue)) : JValue

/-- The scanner's `isSpace`: the four JSON white space characters. -/
def isWs (c : Char) : Bool := c = ' ' || c = '\t' || c = '\r' || c = '\n'

/-- Skip JSON white space. -/
def skipWs : List Char → List Char
  | [] => []
  | c :: cs => if isWs c then skipWs cs else c :: cs

/-- The value of a hexadecimal digit, in either case. -/
def hexVal (c : Char) : Option Nat :=
  let n := c.toNat
  if 48 ≤ n ∧ n ≤ 57 then some (n - 48)
  else if 97 ≤ n ∧ n ≤ 102 then some (n - 87)
  else if 65 ≤ n ∧ n ≤ 70 then some (n - 55)
  else none

/-- The helper `getu4`: the number written by four hexadecimal digits. -/
def hex4 (a b c d : Char) : Option Nat :=
  match hexVal a, hexVal b, hexVal c, hexVal d with
  | some x, some y, some z, some w => some (((x * 16 + y) * 16 + z) * 16 + w)
  | _, _, _, _ => none

/-- The one-character escapes of a JSON string. -/
def unescapeSimple (c : Char) : Option Char :=
  if c = '"' then some '"'
  else if c = '\\' then some '\\'
  else if c = '/' then some '/'
  else if c = 'b' then some '\x08'
  else if c = 'f' then some '\x0c'
  else if c = 'n' then some '\n'
  else if c = 'r' then some '\r'
  else if c = 't' then some '\t'
  else none

/-- The replacement character U+FFFD. -/
def replacementChar : Char := Char.ofNat 0xfffd

/-- The function `utf16.DecodeRune`: the code point of a surrogate pair, or U+FFFD. -/
def decodeSurrogates (hi lo : Nat) : Char :=
  if 0xd800 ≤ hi ∧ hi < 0xdc00 ∧ 0xdc00 ≤ lo ∧ lo < 0xe000 then
    Char.ofNat ((hi - 0xd800) * 0x400 + (lo - 0xdc00) + 0x10000)
  else replacementChar

/-- Put a decoded character in front of the rest of a decoded string. -/
def consChar (c : Char) (r : Option (GoString × List Char)) : Option (GoString × List Char) :=
  match r with
  | none => none
  | some (s, rest) => some (c :: s, rest)

/-- Whether a number is a UTF-16 surrogate (`utf16.IsSurrogate`). -/
def isSurrogate (n : Nat) : Bool := 0xd800 ≤ n && n < 0xe000

/-- Emit U+FFFD for a surrogate escape that found no partner. -/
def flushPending (p : Option Nat) (r : Option (GoString × List Char)) :
    Option (GoString × List Char) :=
  match p with
  | none => r
  | some _ => consChar replacementChar r

/-- The body of a string literal, after the opening quote: the decoded string and
the input after the closing quote (the scanner's string states and `unquote`).
The first argument is a surrogate read from the preceding `\u` escape, which
`unquote` pairs with a directly following `\u` escape or replaces by U+FFFD. -/
def parseStringBody : Option Nat → List Char → Option (GoString × List Char)
  | _, [] => none
  | p, c :: rest =>
    if c = '"' then flushPending p (some ([], rest))
    else if c = '\\' then
      match rest with
      | [] => none
      | e :: rest1 =>
        if e = 'u' then
          match rest1 with
          | h1 :: h2 :: h3 :: h4 :: rest2 =>
            match hex4 h1 h2 h3 h4 with
            | none => none
            | some n =>
              match p with
              | some hi =>
                if decodeSurrogates hi n = replacementChar then
                  consChar replacementChar
                    (if isSurrogate n then parseStringBody (some n) rest2
                     else consChar (Char.ofNat n) (parseStringBody none rest2))
                else consChar (decodeSurrogates hi n) (parseStringBody none rest2)
              | none =>
                if isSurrogate n then parseStringBody (some n) rest2
                else consChar (Char.ofNat n) (parseStringBody none rest2)
          | _ => none
        else
          match unescapeSimple e with
          | none => none
          | some ch => flushPending p (consChar ch (parseStringBody none rest1))
    else if c.toNat < 0x20 then none
    else flushPending p (consChar c (parseStringBody none rest))

/-- Whether a character is a decimal digit. -/
def isDigit (c : Char) : Bool := 48 ≤ c.toNat && c.toNat ≤ 57

/-- Split off the leading decimal digits. -/
def spanDigits : List Char → List Char × List Char
  | [] => ([], [])
  | c :: cs =>
    if isDigit c then ((spanDigits cs).1.cons c, (spanDigits cs).2) else ([], c :: cs)

/-- The integer part of a number: `0`, or a non-zero digit followed by digits. -/
def parseInt (cs : List Char) : Option (List Char × List Char) :=
  match cs with
  | [] => none
  | c :: rest =>
    if c = '0' then some (['0'], rest)
    else if isDigit c then some (c :: (spanDigits rest).1, (spanDigits rest).2)
    else none

/-- The optional fraction of a number: a dot followed by at least one digit. -/
def parseFrac (cs : List Char) : Option (List Char × List Char) :=
  match cs with
  | c :: rest =>
    if c = '.' then
      (if (spanDigits rest).1 = [] then none
       else some (c :: (spanDigits rest).1, (spanDigits rest).2))
    else some ([], cs)
  | [] => some ([], cs)

/-- The digits of an exponent, at least one. -/
def parseExpDigits (pre rest : List Char) : Option (List Char × List Char) :=
  if (spanDigits rest).1 = [] then none
  else some (pre ++ (spanDigits rest).1, (spanDigits rest).2)

/-- The optional exponent of a number: `e` or `E`, an optional sign, digits. -/
def parseExp (cs : List Char) : Option (List Char × List Char) :=
  match cs with
  | c :: rest =>
    if c = 'e' ∨ c = 'E' then
      match rest with
      | s :: rest1 =>
        if s = '+' ∨ s = '-' then parseExpDigits [c, s] rest1
        else parseExpDigits [c] rest
      | [] => none
    else some ([], cs)
  | [] => some ([], cs)

/-- A number after its optional minus sign. -/
def parseUnsigned (cs : List Char) : Option (List Char × List Char) :=
  match parseInt cs with
  | none => none
  | some (i, r1) =>
    match parseFrac r1 with
    | none => none
    | some (f, r2) =>
      match parseExp r2 with
      | none => none
      | some (e, r3) => some (i ++ f ++ e, r3)

/-- A JSON number: its text and the input after it. -/
def parseNumber (cs : List Char) : Option (List Char × List Char) :=
  match cs with
  | c :: rest =>
    if c = '-' then
      match parseUnsigned rest with
      | none => none
      | some (t, r) => some (c :: t, r)
    else parseUnsigned cs
  | [] => none

/-- Strip the given word from the front of the input. -/
def stripWord : List Char → List Char → Option (List Char)
  | [], cs => some cs
  | _ :: _, [] => none
  | w :: ws, c :: cs => if w = c then stripWord ws cs else none

/-- The elements of an array after the first position: a value, then a comma and
more elements, or the closing bracket. -/
def parseElemsWith (pv : List Char → Option (JValue × List Char)) :
    Nat → List Char → Option (List JValue × List Char)
  | 0, _ => none
  | n + 1, cs =>
    match pv cs with
    | none => none
    | some (v, r) =>
      match skipWs r with
      | [] => none
      | c :: r1 =>
        if c = ',' then
          match parseElemsWith pv n (skipWs r1) with
          | none => none
          | some (vs, r2) => some (v :: vs, r2)
        else if c = ']' then some ([v], r1)
        else none

/-- The members of an object after the first position: a string key, a colon, a
value, then a comma and more members, or the closing brace. -/
def parseMembersWith (pv : List Char → Option (JValue × List Char)) :
    Nat → List Char → Option (List (GoString × JValue) × List Char)
  | 0, _ => none
  | n + 1, cs =>
    match cs with
    | [] => none
    | q :: r0 =>
      if q = '"' then
        match parseStringBody none r0 with
        | none => none
        | some (k, r1) =>
          match skipWs r1 with
          | [] => none
          | c :: r2 =>
            if c = ':' then
              match pv (skipWs r2) with
              | none => none
              | some (v, r3) =>
                match skipWs r3 with
                | [] => none
                | d :: r4 =>
                  if d = ',' then
                    match parseMembersWith pv n (skipWs r4) with
                    | none => none
                    | some (kvs, r5) => some ((k, v) :: kvs, r5)
                  else if d = '\x7d' then some ([(k, v)], r4)
                  else none
            else none
      else none

/-- The scanner's constant `maxNestingDepth`. -/
def maxNestingDepth : Nat := 10000

/-- One JSON value at the front of the input (no leading white space). The fuel
bounds the nesting and the number of elements; any fuel above the length of the
input gives the same result (`parseValue_fuel`), so the fuel never decides it.
`depth` is the number of arrays and objects open around the value: the scanner
reports an error for a bracket or brace that opens more than `maxNestingDepth`
levels. -/
def parseValue : Nat → Nat → List Char → Option (JValue × List Char)
  | 0, _, _ => none
  | n + 1, depth, cs =>
    match cs with
    | [] => none
    | c :: rest =>
      if c = '"' then
        match parseStringBody none rest with
        | none => none
        | some (s, r) => some (JValue.str s, r)
      else if c = '[' then
        if maxNestingDepth ≤ depth then none
        else
          match skipWs rest with
          | [] => none
          | d :: r1 =>
            if d = ']' then some (JValue.arr [], r1)
            else
              match parseElemsWith (parseValue n (depth + 1)) n (d :: r1) with
              | none => none
              | some (vs, r2) => some (JValue.arr vs, r2)
      else if c = '\x7b' then
        if maxNestingDepth ≤ depth then none
        else
          match skipWs rest with
          | [] => none
          | d :: r1 =>
            if d = '\x7d' then some (JValue.obj [], r1)
            else
              match parseMembersWith (parseValue n (depth + 1)) n (d :: r1) with
              | none => none
              | some (kvs, r2) => some (JValue.obj kvs, r2)
      else if c = 't' then
        match stripWord ['r', 'u', 'e'] rest with
        | none => none
        | some r => some (JValue.bool true, r)
      else if c = 'f' then
        match stripWord ['a', 'l', 's', 'e'] rest with
        | none => none
        | some r => some (JValue.bool false, r)
      else if c = 'n' then
        match stripWord ['u', 'l', 'l'] rest with
        | none => none
        | some r => some (JValue.null, r)
      else
        match parseNumber cs with
        | none => none
        | some (t, r) => some (JValue.num t, r)

/-- A whole JSON text: one value between optional white space (`checkValid`
followed by the decoder's scan). -/
def parseJSON (data : List Char) : Option JValue :=
  match parseValue (data.length + 1) 0 (skipWs data) with
  | none => none
  | some (v, rest) => if skipWs rest = [] then some v else none

/-- The two fields of `Entry` a JSON key can name. -/
inductive Field where
  | mot : Field
  | definition : Field
deriving DecidableEq

/-- The field a key selects: an exact match or, failing that, a match under case
folding; for the names `mot` and `definition` folding is ASCII case insensitivity. -/
def fieldOf (k : GoString) : Option Field :=
  if k.map Char.toLower = ['m', 'o', 't'] then some Field.mot
  else if k.map Char.toLower = ['d', 'e', 'f', 'i', 'n', 'i', 't', 'i', 'o', 'n'] then
    some Field.definition
  else none

/-- Store a value in a string field: a string is stored, `null` leaves the field
as it is, any other value is a type error (`false`) and leaves the field as it is. -/
def storeField (f : Field) (v : JValue) (e : Entry) : Entry × Bool :=
  match v with
  | JValue.str s =>
    (match f with
     | Field.mot => { e with Mot := s }
     | Field.definition => { e with Definition := s }, true)
  | JValue.null => (e, true)
  | _ => (e, false)

/-- Decode the members of an object into an entry, in order; unknown keys are
skipped, and the result tells whether no type error occurred. -/
def decodeObject : List (GoString × JValue) → Entry → Entry × Bool
  | [], e => (e, true)
  | (k, v) :: kvs, e =>
    match fieldOf k with
    | none => decodeObject kvs e
    | some f =>
      ((decodeObject kvs (storeField f v e).1).1,
        (storeField f v e).2 && (decodeObject kvs (storeField f v e).1).2)

/-- Decode a value into an entry that already holds `e`. -/
def decodeEntry (v : JValue) (e : Entry) : Entry × Bool :=
  match v with
  | JValue.obj kvs => decodeObject kvs e
  | JValue.null => (e, true)
  | _ => (e, false)

/-- Decode the elements of an array into a slice: element `i` is decoded into
slot `i` of the backing array of the slice (`backing` lists the slots, those of
the elements first, then those past the length), or into a zero entry when the
array has to grow. -/
def decodeElems : List JValue → List Entry → List Entry × Bool
  | [], _ => ([], true)
  | v :: vs, backing =>
    ((decodeEntry v (backing.headD Entry.zero)).1 :: (decodeElems vs backing.tail).1,
      (decodeEntry v (backing.headD Entry.zero)).2 && (decodeElems vs backing.tail).2)

/-- The slots left past the length once `k` elements were decoded: an empty array
gives a fresh slice without slots; otherwise the slots after the first `k` stay. -/
def leftover (k : Nat) (backing : List Entry) : List Entry :=
  if k = 0 then [] else backing.drop k

/-- Decode a value into the slice `s` whose backing array holds `spare` past the
length: `null` makes the slice nil, an array is decoded into the backing array,
anything else is a type error and leaves the slice as it is. The result is the
slice, the slots past its length, and whether no type error occurred. -/
def decodeSlice (v : JValue) (s : Entries) (spare : List Entry) :
    (Entries × List Entry) × Bool :=
  match v with
  | JValue.null => ((none, []), true)
  | JValue.arr vs =>
    ((some (decodeElems vs (elems s ++ spare)).1, leftover vs.length (elems s ++ spare)),
      (decodeElems vs (elems s ++ spare)).2)
  | _ => ((s, spare), false)

/-- The two kinds of error the decoder reports. -/
inductive JSONError where
  | syntaxError : JSONError
  | typeError : JSONError
deriving DecidableEq

/-- The call `json.Unmarshal(fileData, &d.entries)`, on the slice and the slots
of its backing array past the length: a text that is not valid JSON leaves the
slice untouched; a type error is reported after the decoding has been carried
out in place. -/
def Unmarshal (data : List Char) (s : Entries) (spare : List Entry) :
    Option JSONError × (Entries × List Entry) :=
  match parseJSON data with
  | none => (some JSONError.syntaxError, (s, spare))
  | some v =>
    (if (decodeSlice v s spare).2 then none else some JSONError.typeError,
      (decodeSlice v s spare).1)

/-- The call `json.NewDecoder(r.Body).Decode(&newEntry)` on a zero entry: the
decoder reads the first value of the body, whatever follows it, and decodes it
into the entry. -/
def Decode (body : List Char) : Except JSONError Entry :=
  match parseValue (body.length + 1) 0 (skipWs body) with
  | none => .error JSONError.syntaxError
  | some (v, _) =>
    if (decodeEntry v Entry.zero).2 then .ok (decodeEntry v Entry.zero).1
    else .error JSONError.typeError

/-! ## The store and its environment -/

/-- What a run does to the lock, the file and the standard output. -/
inductive Event where
  | lock : Event
  | unlock : Event
  | readFile : Event
  | writeFile (data : List Char) : Event
  | print (text : GoString) : Event
deriving DecidableEq

/-- The struct `Dictionnaire`. The slice `entries` is kept as its sequence and
`spare`, the slots of its backing array past its length (its capacity), up to
trailing zero entries: `append` fills the first spare slot and `json.Unmarshal`
decodes into them. `mutex` is true while the mutex is held. -/
structure Dictionnaire where
  filePath : GoString
  entries : Entries
  spare : List Entry
  mutex : Bool
deriving DecidableEq

/-- The constructor `NewDictionnaire`. -/
def NewDictionnaire (filePath : GoString) : Dictionnaire :=
  { filePath := filePath, entries := none, spare := [], mutex := false }

/-- The store together with the file at its path: `file` is the content (`none`
when it cannot be read, with message `readErr`), `writeErr` is the error the next
write meets (`none` when it succeeds), `trace` records the events so far. -/
structure World where
  d : Dictionnaire
  file : Option (List Char)
  readErr : GoString
  writeErr : Option GoString
  trace : List Event
deriving DecidableEq

/-- Texts of the library that the handlers pass on or depend on: the case table
`unicode.ToLower` and the messages of the decoder's errors. -/
structure Lib where
  lower : Char → Char
  jsonErrText : JSONError → GoString

/-- A run of a function of the store: it returns, or it blocks forever on the
mutex (the state is the one in which it stays blocked). -/
inductive Run (α : Type) where
  | done (a : α) (w : World) : Run α
  | blocked (w : World) : Run α
deriving DecidableEq

/-- The call `d.mutex.Lock()`: `none` when the mutex is held, since the call then
never returns. Requests are run one at a time, so a mutex that is held when `Lock`
is called is held by the caller itself or by an earlier run that stays blocked,
and nothing will release it. -/
def Lock (w : World) : Option World :=
  if w.d.mutex then none
  else some { w with d := { w.d with mutex := true }, trace := w.trace ++ [Event.lock] }

/-- The call `d.mutex.Unlock()`. -/
def Unlock (w : World) : World :=
  { w with d := { w.d with mutex := false }, trace := w.trace ++ [Event.unlock] }

/-- The call `ioutil.ReadFile(d.filePath)`. -/
def ReadFile (w : World) : Except GoString (List Char) × World :=
  (match w.file with
   | some data => .ok data
   | none => .error w.readErr,
   { w with trace := w.trace ++ [Event.readFile] })

/-- The call `ioutil.WriteFile(d.filePath, fileData, 0644)`. -/
def WriteFile (w : World) (data : List Char) : Option GoString × World :=
  match w.writeErr with
  | none => (none, { w with file := some data, trace := w.trace ++ [Event.writeFile data] })
  | some err => (some err, { w with trace := w.trace ++ [Event.writeFile data] })

/-- The store with the sequence `s` in `d.entries`, the backing array past the
length as it is. -/
def setEntries (w : World) (s : Entries) : World :=
  { w with d := { w.d with entries := s } }

/-- The assignment `d.entries = append(d.entries, newEntry)`: the entry goes into
the first slot past the length, or into a new backing array when there is none. -/
def appendEntry (w : World) (newEntry : Entry) : World :=
  { w with d := { w.d with entries := goAppend w.d.entries newEntry, spare := w.d.spare.tail } }

/-- The assignment `d.entries = updatedEntries` of a slice built by `append` from
nil: its backing array holds nothing but zero entries past the length. -/
def installEntries (w : World) (updatedEntries : Entries) : World :=
  { w with d := { w.d with entries := updatedEntries, spare := [] } }

/-- The slice `d.entries` after `json.Unmarshal` has decoded into it. -/
def storeDecoded (w : World) (r : Entries × List Entry) : World :=
  { w with d := { w.d with entries := r.1, spare := r.2 } }

/-- Write a line to the standard output. -/
def printLine (w : World) (text : GoString) : World :=
  { w with trace := w.trace ++ [Event.print text] }

/-- The method `loadFromFile`; the result is the error, if any. -/
def loadFromFile (L : Lib) (w : World) : Run (Option GoString) :=
  match Lock w with
  | none => Run.blocked w
  | some w1 =>
    match ReadFile w1 with
    | (.error err, w2) =>
      Run.done (some ("failed to read file: ".toList ++ err)) (Unlock w2)
    | (.ok fileData, w2) =>
      match Unmarshal fileData w2.d.entries w2.d.spare with
      | (some err, s) =>
        Run.done (some ("failed to unmarshal JSON: ".toList ++ L.jsonErrText err))
          (Unlock (storeDecoded w2 s))
      | (none, s) => Run.done none (Unlock (storeDecoded w2 s))

/-- The method `saveToFile`; the result is the error, if any. -/
def saveToFile (w : World) : Run (Option GoString) :=
  match Lock w with
  | none => Run.blocked w
  | some w1 =>
    match MarshalIndent w1.d.entries with
    | .error err => Run.done (some ("failed to marshal JSON: ".toList ++ err)) (Unlock w1)
    | .ok fileData =>
      match WriteFile w1 fileData with
      | (some err, w2) => Run.done (some ("failed to write file: ".toList ++ err)) (Unlock w2)
      | (none, w2) => Run.done none (Unlock w2)

/-! ## HTTP requests and responses -/

/-- What a handler reads of a request: the method, the body and the value of
`r.URL.Query().Get("mot")` (empty when the parameter is absent). -/
structure Request where
  method : GoString
  body : List Char
  mot : GoString
deriving DecidableEq

/-- What a handler writes to the `http.ResponseWriter`. -/
structure Response where
  status : Nat
  header : List (GoString × GoString)
  body : List Char
deriving DecidableEq

/-- The call `http.Error(w, msg, code)`. -/
def httpError (msg : GoString) (code : Nat) : Response :=
  { status := code,
    header := [("Content-Type".toList, "text/plain; charset=utf-8".toList),
      ("X-Content-Type-Options".toList, "nosniff".toList)],
    body := msg ++ ['\n'] }

/-- The call `w.WriteHeader(code)` with nothing written after it. -/
def writeHeader (code : Nat) : Response :=
  { status := code, header := [], body := [] }

/-- A JSON response: the content type is set and the body written, which sends
status 200. -/
def writeJSON (body : List Char) : Response :=
  { status := 200, header := [("Content-Type".toList, "application/json".toList)],
    body := body }

/-- The constant `http.MethodPost`. -/
def MethodPost : GoString := "POST".toList

/-- The constant `http.MethodGet`. -/
def MethodGet : GoString := "GET".toList

/-- The constant `http.MethodDelete`. -/
def MethodDelete : GoString := "DELETE".toList

/-- The handler `AddEntryHandler`. -/
def AddEntryHandler (w : World) (r : Request) : Run Response :=
  if r.method ≠ MethodPost then
    Run.done (httpError "Method not allowed".toList 405) w
  else
    match Decode r.body with
    | .error _ => Run.done (httpError "Invalid request body".toList 400) w
    | .ok newEntry =>
      match Lock w with
      | none => Run.blocked w
      | some w1 =>
        match saveToFile (appendEntry w1 newEntry) with
        | Run.blocked w2 => Run.blocked w2
        | Run.done (some err) w2 =>
          Run.done (httpError ("Internal server error: ".toList ++ err) 500) (Unlock w2)
        | Run.done none w2 => Run.done (writeHeader 201) (Unlock w2)

/-- The loop of `RemoveEntryHandler` over `d.entries`, started on the entries
kept so far (`updatedEntries`) and the flag `found`. -/
def removeLoop (L : Lib) (word : GoString) : List Entry → Entries × Bool → Entries × Bool
  | [], acc => acc
  | entry :: rest, (updatedEntries, found) =>
    if ToLower L.lower entry.Mot = word then removeLoop L word rest (updatedEntries, true)
    else removeLoop L word rest (goAppend updatedEntries entry, found)

/-- The handler `RemoveEntryHandler`. -/
def RemoveEntryHandler (L : Lib) (w : World) (r : Request) : Run Response :=
  if r.method ≠ MethodDelete then
    Run.done (httpError "Method not allowed".toList 405) w
  else if TrimSpace r.mot = [] then
    Run.done
      (httpError "Bad Request: Missing 'mot' parameter in the URL query".toList 400) w
  else
    match Lock w with
    | none => Run.blocked w
    | some w1 =>
      match removeLoop L (ToLower L.lower (TrimSpace r.mot)) (elems w1.d.entries)
          (none, false) with
      | (_, false) =>
        Run.done
          (httpError ("Not Found: Mot '".toList ++ r.mot ++
            "' not found in the dictionary".toList) 404) (Unlock w1)
      | (updatedEntries, true) =>
        match saveToFile (installEntries w1 updatedEntries) with
        | Run.blocked w2 => Run.blocked w2
        | Run.done (some err) w2 =>
          Run.done (httpError ("Internal Server Error: ".toList ++ err) 500) (Unlock w2)
        | Run.done none w2 => Run.done (writeHeader 204) (Unlock w2)

/-- The line the loop of `GetEntryHandler` prints for an entry. -/
def comparingLine (lowered word : GoString) : GoString :=
  "Comparing '".toList ++ lowered ++ "' with '".toList ++ word ++ "'\n".toList

/-- The loop of `GetEntryHandler` over `d.entries`: the definition and the flag
`found` at the end of the loop, and the world with the lines printed on the way. -/
def getLoop (L : Lib) (word : GoString) : List Entry → World → (GoString × Bool) × World
  | [], w => (([], false), w)
  | entry :: rest, w =>
    if ToLower L.lower entry.Mot = word then
      ((entry.Definition, true), printLine w (comparingLine (ToLower L.lower entry.Mot) word))
    else getLoop L word rest (printLine w (comparingLine (ToLower L.lower entry.Mot) word))

/-- The text `fmt.Println` writes for a boolean. -/
def boolText (b : Bool) : GoString := if b then "true".toList else "false".toList

/-- The handler `GetEntryHandler`. -/
def GetEntryHandler (L : Lib) (w : World) (r : Request) : Run Response :=
  if r.method ≠ MethodGet then
    Run.done (httpError "Method not allowed".toList 405) w
  else if TrimSpace r.mot = [] then
    Run.done
      (httpError "Bad Request: Missing 'mot' parameter in the URL query".toList 400) w
  else
    match Lock w with
    | none => Run.blocked w
    | some w1 =>
      match getLoop L (ToLower L.lower (TrimSpace r.mot)) (elems w1.d.entries)
          (printLine w1 ("Received GET request with 'mot' parameter: ".toList ++
            ToLower L.lower (TrimSpace r.mot) ++ ['\n'])) with
      | ((definition, found), w2) =>
        if !found then
          Run.done
            (httpError ("Not Found: Mot '".toList ++ ToLower L.lower (TrimSpace r.mot) ++
              "' not found in the dictionary".toList) 404)
            (Unlock (printLine w2 ("Word Found: ".toList ++ boolText found ++ ['\n'])))
        else
          match marshalResponse (ToLower L.lower (TrimSpace r.mot)) definition with
          | .error _ =>
            Run.done (httpError "Failed to marshal data".toList 500)
              (Unlock (printLine w2 ("Word Found: ".toList ++ boolText found ++ ['\n'])))
          | .ok response =>
            Run.done (writeJSON response)
              (Unlock (printLine w2 ("Word Found: ".toList ++ boolText found ++ ['\n'])))

/-- The handler `ListEntriesHandler`. -/
def ListEntriesHandler (L : Lib) (w : World) (r : Request) : Run Response :=
  if r.method ≠ MethodGet then
    Run.done (httpError "Method not allowed".toList 405) w
  else
    match loadFromFile L w with
    | Run.blocked w1 => Run.blocked w1
    | Run.done (some err) w1 =>
      Run.done (httpError ("Internal server error: ".toList ++ err) 500) w1
    | Run.done none w1 =>
      match Marshal w1.d.entries with
      | .error _ => Run.done (httpError "Failed to marshal data".toList 500) w1
      | .ok response => Run.done (writeJSON response) w1

/-! ## Notions used to state the properties, and sample inputs -/

/-- The state in which a run ends, whether it returned or stays blocked. -/
def Run.world {α : Type} : Run α → World
  | Run.done _ w => w
  | Run.blocked w => w

/-- The word a get or remove request looks for: the query trimmed and lowered. -/
def queryWord (L : Lib) (r : Request) : GoString := ToLower L.lower (TrimSpace r.mot)

/-- Whether an entry's word equals `word` once lowered (the test of both loops). -/
def matchesWord (L : Lib) (word : GoString) (e : Entry) : Bool :=
  decide (ToLower L.lower e.Mot = word)

/-- The world after a successful `Lock`. -/
def locked (w : World) : World :=
  { w with d := { w.d with mutex := true }, trace := w.trace ++ [Event.lock] }

/-- A sample library: ASCII lower-casing and fixed error texts. -/
def asciiLib : Lib :=
  { lower := Char.toLower, jsonErrText := fun _ => "invalid JSON".toList }

/-- A fresh store on a writable file that holds an empty array. -/
def freshWorld : World :=
  { d := NewDictionnaire "entries.json".toList, file := some ['[', ']'], readErr := [],
    writeErr := none, trace := [] }

/-- The entry of the running example. -/
def chat : Entry := { Mot := "chat".toList, Definition := "animal".toList }

/-- A POST request that adds the entry `chat`. -/
def addChat : Request :=
  { method := MethodPost,
    body := "\x7b\"mot\":\"chat\",\"definition\":\"animal\"\x7d".toList, mot := [] }

/-- A store that holds three entries, two of them case variants of one word. -/
def sampleWorld : World :=
  setEntries freshWorld (some [⟨"Chat".toList, "animal".toList⟩,
    ⟨"chien".toList, "ami".toList⟩, ⟨"CHAT".toList, "felin".toList⟩])

/-- A DELETE request for the word `chat`, written with blanks and capitals. -/
def removeChat : Request := { method := MethodDelete, body := [], mot := " cHAT ".toList }

/-- A DELETE request for a word the sample store does not hold. -/
def removeLoup : Request := { method := MethodDelete, body := [], mot := "loup".toList }

/-- A GET request for the word `chat`, written with blanks and capitals. -/
def getChat : Request := { method := MethodGet, body := [], mot := " cHAT ".toList }

/-- The GET request of the running example: the word `chat` with a capital. -/
def getChatCapital : Request := { method := MethodGet, body := [], mot := "Chat".toList }

/-- A GET request for a word the sample store does not hold. -/
def getLoup : Request := { method := MethodGet, body := [], mot := "Loup".toList }

/-- The lines the loop of `GetEntryHandler` prints for the entries it compares. -/
def comparisons (L : Lib) (word : GoString) (es : List Entry) : List Event :=
  es.map (fun e => Event.print (comparingLine (ToLower L.lower e.Mot) word))

/-- The events of a run of `GetEntryHandler` that takes the mutex and compares the
entries `seen`, ending with `found`. -/
def getEvents (L : Lib) (word : GoString) (seen : List Entry) (found : Bool) : List Event :=
  [Event.lock,
    Event.print ("Received GET request with 'mot' parameter: ".toList ++ word ++ ['\n'])] ++
  comparisons L word seen ++
  [Event.print ("Word Found: ".toList ++ boolText found ++ ['\n']), Event.unlock]

/-- An entry whose word starts with a blank, as `AddEntryHandler` accepts it. -/
def paddedChat : Entry := { Mot := " chat".toList, Definition := "animal".toList }

/-- A GET request whose query is the padded word itself. -/
def getPadded : Request := { method := MethodGet, body := [], mot := " chat".toList }

/-- A fresh store next to a file that holds one entry whose word starts with a
blank. -/
def paddedWorld : World :=
  { freshWorld with
    file := some "[\x7b\"mot\": \" chat\", \"definition\": \"animal\"\x7d]".toList }

/-- A GET request with a wrong method for every handler. -/
def putRequest : Request :=
  { method := "PUT".toList, body := addChat.body, mot := "chat".toList }

/-- A parser that consumes at least one character whenever it succeeds. -/
def Consumes {α : Type} (pv : List Char → Option (α × List Char)) : Prop :=
  ∀ (cs : List Char) (v : α) (r : List Char), pv cs = some (v, r) → r.length < cs.length

/-- The JSON object that encodes an entry. -/
def entryValue (e : Entry) : JValue :=
  JValue.obj [(['m', 'o', 't'], JValue.str e.Mot),
    (['d', 'e', 'f', 'i', 'n', 'i', 't', 'i', 'o', 'n'], JValue.str e.Definition)]

/-- The string a value holds, if it is a string. -/
def strOf (v : JValue) : Option GoString :=
  match v with
  | JValue.str s => some s
  | _ => none

/-- The string an object gives for a field: the value of the last member whose key
selects the field, when that value is a string. -/
def lastField (f : Field) : List (GoString × JValue) → Option GoString
  | [] => none
  | (k, v) :: kvs =>
    match lastField f kvs with
    | some s => some s
    | none => if fieldOf k = some f then strOf v else none

/-- The entry a JSON object describes: its `mot` and its `definition`. -/
def entryOfObject (kvs : List (GoString × JValue)) : Entry :=
  { Mot := (lastField Field.mot kvs).getD [],
    Definition := (lastField Field.definition kvs).getD [] }

/-- The entry a JSON value describes; values that are no objects describe none
and are mapped to the zero entry. -/
def entryOfValue (v : JValue) : Entry :=
  match v with
  | JValue.obj kvs => entryOfObject kvs
  | _ => Entry.zero

/-- Whether a value is a string. -/
def isStr (v : JValue) : Bool :=
  match v with
  | JValue.str _ => true
  | _ => false

/-- Whether a JSON value is an entry `{mot, definition}`: an object that has a
member for each of the two fields, every such member holding a string. -/
def isEntryObject (v : JValue) : Bool :=
  match v with
  | JValue.obj kvs =>
    kvs.all (fun kv => (fieldOf kv.1).isNone || isStr kv.2) &&
    kvs.any (fun kv => decide (fieldOf kv.1 = some Field.mot)) &&
    kvs.any (fun kv => decide (fieldOf kv.1 = some Field.definition))
  | _ => false

/-- The sample store next to a file that was edited by hand. -/
def editedWorld : World :=
  { sampleWorld with
    file := some (" [\x7b\"Mot\": \"loup\", \"definition\": \"sauvage\", \"n\": 1\x7d,".toList ++
      " \x7b\"definition\": \"x\", \"mot\": \"rat\", \"definition\": \"petit\"\x7d]\n".toList) }

/-- The values the hand-edited file holds. -/
def editedValues : List JValue :=
  [JValue.obj [("Mot".toList, JValue.str "loup".toList),
      ("definition".toList, JValue.str "sauvage".toList), ("n".toList, JValue.num ['1'])],
    JValue.obj [("definition".toList, JValue.str "x".toList),
      ("mot".toList, JValue.str "rat".toList),
      ("definition".toList, JValue.str "petit".toList)]]

/-- A file whose only element gives a definition and no word. -/
def partialFile : List Char := "[\x7b\"definition\":\"x\"\x7d]".toList

/-- A GET request without parameters. -/
def getList : Request := { method := MethodGet, body := [], mot := [] }

/-! ## Strings: what the encoder writes, the decoder reads back -/

theorem hexVal_hexDigit (k : Nat) (h : k < 16) : hexVal (hexDigit k) = some k := by
  interval_cases k <;> decide

theorem parseStringBody_cons (p : Option Nat) (c : Char) (rest : List Char) :
    parseStringBody p (c :: rest) =
    if c = '"' then flushPending p (some ([], rest))
    else if c = '\\' then
      match rest with
      | [] => none
      | e :: rest1 =>
        if e = 'u' then
          match rest1 with
          | h1 :: h2 :: h3 :: h4 :: rest2 =>
            match hex4 h1 h2 h3 h4 with
            | none => none
            | some n =>
              match p with
              | some hi =>
                if decodeSurrogates hi n = replacementChar then
                  consChar replacementChar
                    (if isSurrogate n then parseStringBody (some n) rest2
                     else consChar (Char.ofNat n) (parseStringBody none rest2))
                else consChar (decodeSurrogates hi n) (parseStringBody none rest2)
              | none =>
                if isSurrogate n then parseStringBody (some n) rest2
                else consChar (Char.ofNat n) (parseStringBody none rest2)
          | _ => none
        else
          match unescapeSimple e with
          | none => none
          | some ch => flushPending p (consChar ch (parseStringBody none rest1))
    else if c.toNat < 0x20 then none
    else flushPending p (consChar c (parseStringBody none rest)) := by
  rw [parseStringBody.eq_def]

theorem parseStringBody_plain (c : Char) (tail : List Char) (h1 : c ≠ '"') (h2 : c ≠ '\\')
    (h3 : ¬ c.toNat < 0x20) :
    parseStringBody none (c :: tail) = consChar c (parseStringBody none tail) := by
  rw [parseStringBody_cons]
  simp [h1, h2, h3, flushPending]


theorem parseStringBody_simple (c e : Char) (tail : List Char) (hu : e ≠ 'u')
    (h : unescapeSimple e = some c) :
    parseStringBody none ('\\' :: e :: tail) = consChar c (parseStringBody none tail) := by
  rw [parseStringBody_cons]
  simp [hu, h, flushPending]

theorem parseStringBody_hex (a b c d : Char) (n : Nat) (tail : List Char)
    (h : hex4 a b c d = some n) (hs : isSurrogate n = false) :
    parseStringBody none ('\\' :: 'u' :: a :: b :: c :: d :: tail) =
      consChar (Char.ofNat n) (parseStringBody none tail) := by
  rw [parseStringBody_cons]
  simp [h, hs]

theorem hex4_low (n : Nat) (h : n < 0x80) :
    hex4 '0' '0' (hexDigit (n / 16)) (hexDigit (n % 16)) = some n := by
  have h1 : hexVal (hexDigit (n / 16)) = some (n / 16) := hexVal_hexDigit _ (by omega)
  have h2 : hexVal (hexDigit (n % 16)) = some (n % 16) := hexVal_hexDigit _ (by omega)
  have h0 : hexVal '0' = some 0 := by decide
  simp only [hex4, h0, h1, h2]
  congr 1
  omega

theorem parseStringBody_escapeChar (c : Char) (tail : List Char) :
    parseStringBody none (escapeChar c ++ tail) = consChar c (parseStringBody none tail) := by
  unfold escapeChar
  by_cases hlt : c.toNat < 0x80
  · rw [if_pos hlt]
    by_cases hsafe : htmlSafe c = true
    · rw [if_pos hsafe]
      simp only [htmlSafe, Bool.and_eq_true, decide_eq_true_eq, bne_iff_ne, ne_eq] at hsafe
      obtain ⟨⟨⟨⟨⟨⟨hge, _⟩, hq⟩, hbs⟩, _⟩, _⟩, _⟩ := hsafe
      exact parseStringBody_plain c tail hq hbs (by omega)
    · rw [if_neg hsafe]
      by_cases hq : c = '\\' ∨ c = '"'
      · rw [if_pos hq]
        rcases hq with rfl | rfl
        · exact parseStringBody_simple _ _ tail (by decide) (by decide)
        · exact parseStringBody_simple _ _ tail (by decide) (by decide)
      · rw [if_neg hq]
        by_cases hb : c = '\x08'
        · subst hb; exact parseStringBody_simple _ _ tail (by decide) (by decide)
        rw [if_neg hb]
        by_cases hf : c = '\x0c'
        · subst hf; exact parseStringBody_simple _ _ tail (by decide) (by decide)
        rw [if_neg hf]
        by_cases hn : c = '\n'
        · subst hn; exact parseStringBody_simple _ _ tail (by decide) (by decide)
        rw [if_neg hn]
        by_cases hr : c = '\r'
        · subst hr; exact parseStringBody_simple _ _ tail (by decide) (by decide)
        rw [if_neg hr]
        by_cases ht : c = '\t'
        · subst ht; exact parseStringBody_simple _ _ tail (by decide) (by decide)
        rw [if_neg ht]
        have := parseStringBody_hex '0' '0' (hexDigit (c.toNat / 16)) (hexDigit (c.toNat % 16))
          c.toNat tail (hex4_low _ hlt) (by simp [isSurrogate]; omega)
        rw [Char.ofNat_toNat] at this
        exact this
  · rw [if_neg hlt]
    by_cases hsep : c.toNat = 0x2028 ∨ c.toNat = 0x2029
    · rw [if_pos hsep]
      have h4 : hex4 '2' '0' '2' (hexDigit (c.toNat % 16)) = some c.toNat := by
        rcases hsep with h | h <;> rw [h] <;> decide
      have := parseStringBody_hex '2' '0' '2' (hexDigit (c.toNat % 16))
          c.toNat tail h4 (by rcases hsep with h | h <;> rw [h] <;> decide)
      rw [Char.ofNat_toNat] at this
      exact this
    · rw [if_neg hsep]
      refine parseStringBody_plain c tail ?_ ?_ (by omega)
      · rintro rfl; exact hlt (by decide)
      · rintro rfl; exact hlt (by decide)

theorem parseStringBody_escapeAll (s : GoString) (tail : List Char) :
    parseStringBody none (escapeAll s ++ '"' :: tail) = some (s, tail) := by
  induction s with
  | nil =>
    rw [escapeAll, List.nil_append, parseStringBody_cons]
    simp [flushPending]
  | cons c cs ih =>
    rw [escapeAll, List.append_assoc, parseStringBody_escapeChar, ih]
    rfl

/-! ## Entries: parsing the indented encoding -/

theorem parseValue_string (n depth : Nat) (s : GoString) (tail : List Char) :
    parseValue (n + 1) depth (appendString s ++ tail) = some (JValue.str s, tail) := by
  have h := parseStringBody_escapeAll s tail
  simp only [appendString, List.cons_append, List.append_assoc, List.singleton_append]
  rw [parseValue]
  simp [h]

theorem skipWs_appendString (s : GoString) (tail : List Char) :
    skipWs (appendString s ++ tail) = appendString s ++ tail := by
  simp [appendString, skipWs, isWs]

theorem parseMembersWith_last (pv : List Char → Option (JValue × List Char)) (n : Nat)
    (k : GoString) (v : JValue) (r0 r1 r2 r3 tail : List Char)
    (hk : parseStringBody none r0 = some (k, r1)) (hc : skipWs r1 = ':' :: r2)
    (hv : pv (skipWs r2) = some (v, r3)) (he : skipWs r3 = '\x7d' :: tail) :
    parseMembersWith pv (n + 1) ('"' :: r0) = some ([(k, v)], tail) := by
  rw [parseMembersWith]
  simp [hk, hc, hv, he]

theorem parseMembersWith_more (pv : List Char → Option (JValue × List Char)) (n : Nat)
    (k : GoString) (v : JValue) (kvs : List (GoString × JValue))
    (r0 r1 r2 r3 r4 tail : List Char)
    (hk : parseStringBody none r0 = some (k, r1)) (hc : skipWs r1 = ':' :: r2)
    (hv : pv (skipWs r2) = some (v, r3)) (he : skipWs r3 = ',' :: r4)
    (hrest : parseMembersWith pv n (skipWs r4) = some (kvs, tail)) :
    parseMembersWith pv (n + 1) ('"' :: r0) = some ((k, v) :: kvs, tail) := by
  rw [parseMembersWith]
  simp [hk, hc, hv, he, hrest]

theorem skipWs_colon (t : List Char) : skipWs (':' :: ' ' :: t) = ':' :: ' ' :: t := by
  simp [skipWs, isWs]

theorem parseValue_afterColon (n depth : Nat) (s : GoString) (tail : List Char) :
    parseValue (n + 1) depth (skipWs (' ' :: (appendString s ++ tail))) =
      some (JValue.str s, tail) := by
  have : skipWs (' ' :: (appendString s ++ tail)) = appendString s ++ tail := by
    rw [skipWs]; simp [isWs, skipWs_appendString]
  rw [this, parseValue_string]

theorem parseValue_indentEntry (n depth : Nat) (e : Entry) (tail : List Char)
    (hdepth : depth < maxNestingDepth) :
    parseValue (n + 3) depth (indentEntry e ++ tail) = some (entryValue e, tail) := by
  have hlast : parseMembersWith (parseValue (n + 2) (depth + 1)) (n + 1)
      ('"' :: 'd' :: 'e' :: 'f' :: 'i' :: 'n' :: 'i' :: 't' :: 'i' :: 'o' :: 'n' :: '"' :: ':' ::
        ' ' :: (appendString e.Definition ++ '\n' :: ' ' :: ' ' :: '\x7d' :: tail)) =
      some ([(['d', 'e', 'f', 'i', 'n', 'i', 't', 'i', 'o', 'n'], JValue.str e.Definition)],
        tail) :=
    parseMembersWith_last _ n _ _ _
      (':' :: ' ' :: (appendString e.Definition ++ '\n' :: ' ' :: ' ' :: '\x7d' :: tail))
      (' ' :: (appendString e.Definition ++ '\n' :: ' ' :: ' ' :: '\x7d' :: tail))
      ('\n' :: ' ' :: ' ' :: '\x7d' :: tail) tail
      (parseStringBody_escapeAll ['d', 'e', 'f', 'i', 'n', 'i', 't', 'i', 'o', 'n'] _)
      (skipWs_colon _) (parseValue_afterColon (n + 1) (depth + 1) e.Definition _)
      (by simp [skipWs, isWs])
  have hall : parseMembersWith (parseValue (n + 2) (depth + 1)) (n + 2)
      ('"' :: 'm' :: 'o' :: 't' :: '"' :: ':' :: ' ' :: (appendString e.Mot ++
        ',' :: '\n' :: ' ' :: ' ' :: ' ' :: ' ' ::
        '"' :: 'd' :: 'e' :: 'f' :: 'i' :: 'n' :: 'i' :: 't' :: 'i' :: 'o' :: 'n' :: '"' :: ':' ::
        ' ' :: (appendString e.Definition ++ '\n' :: ' ' :: ' ' :: '\x7d' :: tail))) =
      some ([(['m', 'o', 't'], JValue.str e.Mot),
        (['d', 'e', 'f', 'i', 'n', 'i', 't', 'i', 'o', 'n'], JValue.str e.Definition)],
        tail) :=
    parseMembersWith_more _ (n + 1) _ _ _ _
      (':' :: ' ' :: (appendString e.Mot ++
        ',' :: '\n' :: ' ' :: ' ' :: ' ' :: ' ' ::
        '"' :: 'd' :: 'e' :: 'f' :: 'i' :: 'n' :: 'i' :: 't' :: 'i' :: 'o' :: 'n' :: '"' :: ':' ::
        ' ' :: (appendString e.Definition ++ '\n' :: ' ' :: ' ' :: '\x7d' :: tail)))
      (' ' :: (appendString e.Mot ++
        ',' :: '\n' :: ' ' :: ' ' :: ' ' :: ' ' ::
        '"' :: 'd' :: 'e' :: 'f' :: 'i' :: 'n' :: 'i' :: 't' :: 'i' :: 'o' :: 'n' :: '"' :: ':' ::
        ' ' :: (appendString e.Definition ++ '\n' :: ' ' :: ' ' :: '\x7d' :: tail)))
      (',' :: '\n' :: ' ' :: ' ' :: ' ' :: ' ' ::
        '"' :: 'd' :: 'e' :: 'f' :: 'i' :: 'n' :: 'i' :: 't' :: 'i' :: 'o' :: 'n' :: '"' :: ':' ::
        ' ' :: (appendString e.Definition ++ '\n' :: ' ' :: ' ' :: '\x7d' :: tail))
      ('\n' :: ' ' :: ' ' :: ' ' :: ' ' ::
        '"' :: 'd' :: 'e' :: 'f' :: 'i' :: 'n' :: 'i' :: 't' :: 'i' :: 'o' :: 'n' :: '"' :: ':' ::
        ' ' :: (appendString e.Definition ++ '\n' :: ' ' :: ' ' :: '\x7d' :: tail))
      tail
      (parseStringBody_escapeAll ['m', 'o', 't'] _)
      (skipWs_colon _) (parseValue_afterColon (n + 1) (depth + 1) e.Mot _)
      (by simp [skipWs, isWs])
      (by simpa [skipWs, isWs] using hlast)
  have hshape : indentEntry e ++ tail = '\x7b' :: '\n' :: ' ' :: ' ' :: ' ' :: ' ' ::
      '"' :: 'm' :: 'o' :: 't' :: '"' :: ':' :: ' ' :: (appendString e.Mot ++
        ',' :: '\n' :: ' ' :: ' ' :: ' ' :: ' ' ::
        '"' :: 'd' :: 'e' :: 'f' :: 'i' :: 'n' :: 'i' :: 't' :: 'i' :: 'o' :: 'n' :: '"' :: ':' ::
        ' ' :: (appendString e.Definition ++ '\n' :: ' ' :: ' ' :: '\x7d' :: tail)) := by
    simp [indentEntry, keyMot, keyDefinition]
  rw [hshape, parseValue]
  have hnot : ¬ maxNestingDepth ≤ depth := by omega
  simp [skipWs, isWs, hall, entryValue, hnot]

/-! ## Arrays: parsing and decoding the indented encoding -/

theorem indentEntry_head (e : Entry) (tail : List Char) :
    ∃ t, indentEntry e ++ tail = '\x7b' :: t := by
  simp [indentEntry]

theorem indentElems_head (e : Entry) (es : List Entry) (tail : List Char) :
    ∃ t, indentElems (e :: es) ++ tail = '\x7b' :: t := by
  cases es with
  | nil => simp [indentElems, indentEntry]
  | cons e2 es => simp [indentElems, indentEntry]

theorem skipWs_indentElems (e : Entry) (es : List Entry) (tail : List Char) :
    skipWs (indentElems (e :: es) ++ tail) = indentElems (e :: es) ++ tail := by
  obtain ⟨t, ht⟩ := indentElems_head e es tail
  rw [ht]
  simp [skipWs, isWs]

theorem parseElemsWith_indentElems (m depth : Nat) (hdepth : depth < maxNestingDepth)
    (es : List Entry) :
    ∀ (e : Entry) (n : Nat) (tail : List Char), es.length < n →
      parseElemsWith (parseValue (m + 3) depth) n (indentElems (e :: es) ++ ']' :: tail) =
        some ((e :: es).map entryValue, tail) := by
  induction es with
  | nil =>
    intro e n tail hn
    obtain ⟨k, rfl⟩ : ∃ k, n = k + 1 := ⟨n - 1, by simp at hn; omega⟩
    have hshape : indentElems [e] ++ ']' :: tail = indentEntry e ++ '\n' :: ']' :: tail := by
      simp [indentElems]
    rw [hshape, parseElemsWith, parseValue_indentEntry _ _ _ _ hdepth]
    simp [skipWs, isWs]
  | cons e2 es ih =>
    intro e n tail hn
    obtain ⟨k, rfl⟩ : ∃ k, n = k + 1 := ⟨n - 1, by simp at hn; omega⟩
    have hshape : indentElems (e :: e2 :: es) ++ ']' :: tail =
        indentEntry e ++ ',' :: '\n' :: ' ' :: ' ' :: (indentElems (e2 :: es) ++ ']' :: tail) := by
      simp [indentElems]
    have hrest := ih e2 k tail (by simp at hn ⊢; omega)
    rw [hshape, parseElemsWith, parseValue_indentEntry _ _ _ _ hdepth]
    simp [skipWs, isWs, skipWs_indentElems, hrest]

theorem length_le_indentElems (es : List Entry) : es.length ≤ (indentElems es).length := by
  induction es with
  | nil => simp
  | cons e es ih =>
    cases es with
    | nil => simp [indentElems, indentEntry]
    | cons e2 es =>
      have : indentElems (e :: e2 :: es) =
          indentEntry e ++ [',', '\n', ' ', ' '] ++ indentElems (e2 :: es) := by
        simp [indentElems]
      rw [this]
      simp only [List.length_append, List.length_cons] at ih ⊢
      omega

theorem parseJSON_indent (e : Entry) (es : List Entry) :
    parseJSON (['[', '\n', ' ', ' '] ++ indentElems (e :: es) ++ [']']) =
      some (JValue.arr ((e :: es).map entryValue)) := by
  have hlen := length_le_indentElems (e :: es)
  obtain ⟨t, ht⟩ := indentElems_head e es [']']
  have helems := parseElemsWith_indentElems
    ((['[', '\n', ' ', ' '] ++ indentElems (e :: es) ++ [']']).length - 3) 1
    (by decide) es e
    ((['[', '\n', ' ', ' '] ++ indentElems (e :: es) ++ [']']).length) []
    (by simp only [List.length_append, List.length_cons] at hlen ⊢; omega)
  have hfuel : (['[', '\n', ' ', ' '] ++ indentElems (e :: es) ++ [']']).length - 3 + 3 =
      (['[', '\n', ' ', ' '] ++ indentElems (e :: es) ++ [']']).length := by
    simp only [List.length_append, List.length_cons]; omega
  rw [hfuel] at helems
  unfold parseJSON
  have hskip : skipWs (['[', '\n', ' ', ' '] ++ indentElems (e :: es) ++ [']']) =
      '[' :: '\n' :: ' ' :: ' ' :: (indentElems (e :: es) ++ [']']) := by
    simp [skipWs, isWs]
  rw [hskip, parseValue]
  have hskip2 : skipWs ('\n' :: ' ' :: ' ' :: (indentElems (e :: es) ++ [']'])) =
      '\x7b' :: t := by
    rw [← ht]
    simp [skipWs, isWs, skipWs_indentElems]
  have hnot : ¬ maxNestingDepth ≤ 0 := by decide
  simp only [hskip2, hnot, if_false]
  rw [← ht, helems]
  simp [skipWs]

theorem decodeEntry_entryValue (e base : Entry) : decodeEntry (entryValue e) base = (e, true) := by
  have h1 : fieldOf ['m', 'o', 't'] = some Field.mot := by decide
  have h2 : fieldOf ['d', 'e', 'f', 'i', 'n', 'i', 't', 'i', 'o', 'n'] = some Field.definition := by
    decide
  simp [decodeEntry, entryValue, decodeObject, h1, h2, storeField]

theorem decodeElems_entryValue (es : List Entry) :
    ∀ old : List Entry, decodeElems (es.map entryValue) old = (es, true) := by
  induction es with
  | nil => intro old; rfl
  | cons e es ih =>
    intro old
    simp [decodeElems, decodeEntry_entryValue, ih]

theorem Unmarshal_indentJSON (s old : Entries) (spare : List Entry) :
    Unmarshal (indentJSON s) old spare =
      (none, (s, leftover (elems s).length (elems old ++ spare))) := by
  cases s with
  | none =>
    have : parseJSON ['n', 'u', 'l', 'l'] = some JValue.null := rfl
    simp [indentJSON, Unmarshal, this, decodeSlice, leftover, elems]
  | some l =>
    cases l with
    | nil =>
      have : parseJSON ['[', ']'] = some (JValue.arr []) := rfl
      simp [indentJSON, Unmarshal, this, decodeSlice, decodeElems, leftover, elems]
    | cons e es =>
      simp only [indentJSON]
      rw [Unmarshal, parseJSON_indent]
      have hd := decodeElems_entryValue (e :: es) (elems old ++ spare)
      simp only [decodeSlice, hd]
      simp [elems]

/-! ## The fuel of the parser -/

theorem skipWs_length_le (cs : List Char) : (skipWs cs).length ≤ cs.length := by
  induction cs with
  | nil => simp [skipWs]
  | cons c cs ih =>
    rw [skipWs]
    split
    · simp only [List.length_cons]; omega
    · exact le_refl _

theorem consChar_some (c : Char) (x : Option (GoString × List Char)) (s : GoString)
    (r : List Char) (h : consChar c x = some (s, r)) : ∃ t, x = some (t, r) := by
  cases x with
  | none => simp [consChar] at h
  | some y =>
    obtain ⟨t, r2⟩ := y
    simp only [consChar, Option.some.injEq, Prod.mk.injEq] at h
    exact ⟨t, by rw [h.2]⟩

theorem flushPending_some (p : Option Nat) (x : Option (GoString × List Char)) (s : GoString)
    (r : List Char) (h : flushPending p x = some (s, r)) : ∃ t, x = some (t, r) := by
  cases p with
  | none => exact ⟨s, h⟩
  | some n => exact consChar_some _ x s r h

theorem parseStringBody_length (n : Nat) :
    ∀ (p : Option Nat) (cs : List Char) (s : GoString) (r : List Char),
      cs.length ≤ n → parseStringBody p cs = some (s, r) → r.length < cs.length := by
  induction n with
  | zero =>
    intro p cs s r hlen h
    have : cs = [] := List.eq_nil_of_length_eq_zero (by omega)
    subst this
    simp [parseStringBody] at h
  | succ n ih =>
    intro p cs s r hlen h
    cases cs with
    | nil => simp [parseStringBody] at h
    | cons c rest =>
      rw [parseStringBody_cons] at h
      simp only [List.length_cons] at hlen ⊢
      split at h
      · obtain ⟨t, ht⟩ := flushPending_some _ _ _ _ h
        simp only [Option.some.injEq, Prod.mk.injEq] at ht
        rw [← ht.2]; omega
      · split at h
        · split at h
          · cases h
          · rename_i e rest1
            simp only [List.length_cons] at hlen ⊢
            split at h
            · split at h
              · rename_i h1 h2 h3 h4 rest2
                simp only [List.length_cons] at hlen ⊢
                split at h
                · cases h
                · rename_i k hk
                  have key : ∀ (q : Option Nat) (t : GoString),
                      parseStringBody q rest2 = some (t, r) → r.length < rest2.length + 6 := by
                    intro q t hq
                    have := ih q rest2 t r (by omega) hq
                    omega
                  split at h
                  · split at h
                    · obtain ⟨t, ht⟩ := consChar_some _ _ _ _ h
                      split at ht
                      · have := key _ _ ht; omega
                      · obtain ⟨t2, ht2⟩ := consChar_some _ _ _ _ ht
                        have := key _ _ ht2; omega
                    · obtain ⟨t, ht⟩ := consChar_some _ _ _ _ h
                      have := key _ _ ht; omega
                  · split at h
                    · have := key _ _ h; omega
                    · obtain ⟨t, ht⟩ := consChar_some _ _ _ _ h
                      have := key _ _ ht; omega
              · cases h
            · split at h
              · cases h
              · obtain ⟨t, ht⟩ := flushPending_some _ _ _ _ h
                obtain ⟨t2, ht2⟩ := consChar_some _ _ _ _ ht
                have := ih none rest1 t2 r (by omega) ht2
                omega
        · split at h
          · cases h
          · obtain ⟨t, ht⟩ := flushPending_some _ _ _ _ h
            obtain ⟨t2, ht2⟩ := consChar_some _ _ _ _ ht
            have := ih none rest t2 r (by omega) ht2
            omega

theorem spanDigits_length (cs : List Char) : (spanDigits cs).2.length ≤ cs.length := by
  induction cs with
  | nil => simp [spanDigits]
  | cons c cs ih =>
    rw [spanDigits]
    split
    · simp only [List.length_cons]; omega
    · exact le_refl _

theorem parseInt_length (cs t r : List Char) (h : parseInt cs = some (t, r)) :
    r.length < cs.length := by
  cases cs with
  | nil => simp [parseInt] at h
  | cons c rest =>
    have hs := spanDigits_length rest
    simp only [parseInt] at h
    split at h
    · simp only [Option.some.injEq, Prod.mk.injEq] at h
      rw [← h.2]; simp
    · split at h
      · simp only [Option.some.injEq, Prod.mk.injEq] at h
        rw [← h.2]; simp only [List.length_cons]; omega
      · cases h

theorem parseFrac_length (cs t r : List Char) (h : parseFrac cs = some (t, r)) :
    r.length ≤ cs.length := by
  cases cs with
  | nil =>
    simp only [parseFrac, Option.some.injEq, Prod.mk.injEq] at h
    rw [← h.2]
  | cons c rest =>
    have hs := spanDigits_length rest
    simp only [parseFrac] at h
    split at h
    · split at h
      · cases h
      · simp only [Option.some.injEq, Prod.mk.injEq] at h
        rw [← h.2]; simp only [List.length_cons]; omega
    · simp only [Option.some.injEq, Prod.mk.injEq] at h
      rw [← h.2]

theorem parseExpDigits_length (pre rest t r : List Char)
    (h : parseExpDigits pre rest = some (t, r)) : r.length ≤ rest.length := by
  have hs := spanDigits_length rest
  simp only [parseExpDigits] at h
  split at h
  · cases h
  · simp only [Option.some.injEq, Prod.mk.injEq] at h
    rw [← h.2]; exact hs

theorem parseExp_length (cs t r : List Char) (h : parseExp cs = some (t, r)) :
    r.length ≤ cs.length := by
  cases cs with
  | nil =>
    simp only [parseExp, Option.some.injEq, Prod.mk.injEq] at h
    rw [← h.2]
  | cons c rest =>
    simp only [parseExp] at h
    split at h
    · split at h
      · rename_i s rest1
        split at h
        · have := parseExpDigits_length _ _ _ _ h
          simp only [List.length_cons]; omega
        · have := parseExpDigits_length _ _ _ _ h
          simp only [List.length_cons] at this ⊢; omega
      · cases h
    · simp only [Option.some.injEq, Prod.mk.injEq] at h
      rw [← h.2]

theorem parseUnsigned_length (cs t r : List Char) (h : parseUnsigned cs = some (t, r)) :
    r.length < cs.length := by
  simp only [parseUnsigned] at h
  split at h
  · cases h
  · rename_i i r1 hi
    split at h
    · cases h
    · rename_i f r2 hf
      split at h
      · cases h
      · rename_i e r3 he
        simp only [Option.some.injEq, Prod.mk.injEq] at h
        have h1 := parseInt_length _ _ _ hi
        have h2 := parseFrac_length _ _ _ hf
        have h3 := parseExp_length _ _ _ he
        rw [← h.2]; omega

theorem parseNumber_length (cs t r : List Char) (h : parseNumber cs = some (t, r)) :
    r.length < cs.length := by
  cases cs with
  | nil => simp [parseNumber] at h
  | cons c rest =>
    simp only [parseNumber] at h
    split at h
    · split at h
      · cases h
      · rename_i t2 r2 hu
        simp only [Option.some.injEq, Prod.mk.injEq] at h
        have := parseUnsigned_length _ _ _ hu
        rw [← h.2]; simp only [List.length_cons]; omega
    · exact parseUnsigned_length _ _ _ h

theorem stripWord_length (w : List Char) :
    ∀ (cs r : List Char), stripWord w cs = some r → r.length ≤ cs.length := by
  induction w with
  | nil =>
    intro cs r h
    cases cs <;>
      (simp only [stripWord, Option.some.injEq] at h; rw [← h])
  | cons x w ih =>
    intro cs r h
    cases cs with
    | nil => simp [stripWord] at h
    | cons c cs =>
      simp only [stripWord] at h
      split at h
      · have := ih cs r h
        simp only [List.length_cons]; omega
      · cases h

theorem parseElemsWith_length (pv : List Char → Option (JValue × List Char))
    (hpv : Consumes pv) (n : Nat) :
    ∀ (cs : List Char) (vs : List JValue) (r : List Char),
      parseElemsWith pv n cs = some (vs, r) → r.length < cs.length := by
  induction n with
  | zero => intro cs vs r h; simp [parseElemsWith] at h
  | succ n ih =>
    intro cs vs r h
    rw [parseElemsWith] at h
    split at h
    · cases h
    · rename_i v r0 hv
      have h0 := hpv _ _ _ hv
      have hw := skipWs_length_le r0
      split at h
      · cases h
      · rename_i c r1 hs
        rw [hs] at hw
        simp only [List.length_cons] at hw
        split at h
        · split at h
          · cases h
          · rename_i vs2 r2 hrec
            simp only [Option.some.injEq, Prod.mk.injEq] at h
            have h2 := ih _ _ _ hrec
            have h3 := skipWs_length_le r1
            rw [← h.2]; omega
        · split at h
          · simp only [Option.some.injEq, Prod.mk.injEq] at h
            rw [← h.2]; omega
          · cases h

theorem parseMembersWith_length (pv : List Char → Option (JValue × List Char))
    (hpv : Consumes pv) (n : Nat) :
    ∀ (cs : List Char) (kvs : List (GoString × JValue)) (r : List Char),
      parseMembersWith pv n cs = some (kvs, r) → r.length < cs.length := by
  induction n with
  | zero => intro cs kvs r h; simp [parseMembersWith] at h
  | succ n ih =>
    intro cs kvs r h
    unfold parseMembersWith at h
    split at h
    · cases h
    · rename_i q r0
      simp only [List.length_cons]
      split at h
      · split at h
        · cases h
        · rename_i k r1 hk
          have h1 := parseStringBody_length r0.length none r0 k r1 (le_refl _) hk
          have hw1 := skipWs_length_le r1
          split at h
          · cases h
          · rename_i c r2 hs
            rw [hs] at hw1
            simp only [List.length_cons] at hw1
            split at h
            · split at h
              · cases h
              · rename_i v r3 hv
                have h3 := hpv _ _ _ hv
                have hw2 := skipWs_length_le r2
                have hw3 := skipWs_length_le r3
                split at h
                · cases h
                · rename_i d r4 hs3
                  rw [hs3] at hw3
                  simp only [List.length_cons] at hw3
                  split at h
                  · split at h
                    · cases h
                    · rename_i kvs2 r5 hrec
                      simp only [Option.some.injEq, Prod.mk.injEq] at h
                      have h5 := ih _ _ _ hrec
                      have hw4 := skipWs_length_le r4
                      rw [← h.2]; omega
                  · split at h
                    · simp only [Option.some.injEq, Prod.mk.injEq] at h
                      rw [← h.2]; omega
                    · cases h
            · cases h
      · cases h

theorem parseValue_length (n : Nat) : ∀ depth : Nat, Consumes (parseValue n depth) := by
  induction n with
  | zero => intro depth cs v r h; simp [parseValue] at h
  | succ n ih =>
    intro depth cs v r h
    unfold parseValue at h
    split at h
    · cases h
    · rename_i c rest
      simp only [List.length_cons]
      have hw := skipWs_length_le rest
      split at h
      · split at h
        · cases h
        · rename_i s r1 hs
          simp only [Option.some.injEq, Prod.mk.injEq] at h
          have := parseStringBody_length rest.length none rest s r1 (le_refl _) hs
          rw [← h.2]; omega
      · split at h
        · split at h
          · cases h
          · split at h
            · cases h
            · rename_i d r1 hs
              rw [hs] at hw
              simp only [List.length_cons] at hw
              split at h
              · simp only [Option.some.injEq, Prod.mk.injEq] at h
                rw [← h.2]; omega
              · split at h
                · cases h
                · rename_i vs r2 he
                  simp only [Option.some.injEq, Prod.mk.injEq] at h
                  have := parseElemsWith_length _ (ih (depth + 1)) n _ _ _ he
                  simp only [List.length_cons] at this
                  rw [← h.2]; omega
        · split at h
          · split at h
            · cases h
            · split at h
              · cases h
              · rename_i d r1 hs
                rw [hs] at hw
                simp only [List.length_cons] at hw
                split at h
                · simp only [Option.some.injEq, Prod.mk.injEq] at h
                  rw [← h.2]; omega
                · split at h
                  · cases h
                  · rename_i kvs r2 he
                    simp only [Option.some.injEq, Prod.mk.injEq] at h
                    have := parseMembersWith_length _ (ih (depth + 1)) n _ _ _ he
                    simp only [List.length_cons] at this
                    rw [← h.2]; omega
          · split at h
            · split at h
              · cases h
              · rename_i r1 hs
                simp only [Option.some.injEq, Prod.mk.injEq] at h
                have := stripWord_length _ _ _ hs
                rw [← h.2]; omega
            · split at h
              · split at h
                · cases h
                · rename_i r1 hs
                  simp only [Option.some.injEq, Prod.mk.injEq] at h
                  have := stripWord_length _ _ _ hs
                  rw [← h.2]; omega
              · split at h
                · split at h
                  · cases h
                  · rename_i r1 hs
                    simp only [Option.some.injEq, Prod.mk.injEq] at h
                    have := stripWord_length _ _ _ hs
                    rw [← h.2]; omega
                · split at h
                  · cases h
                  · rename_i t r1 hs
                    simp only [Option.some.injEq, Prod.mk.injEq] at h
                    have := parseNumber_length _ _ _ hs
                    simp only [List.length_cons] at this
                    rw [← h.2]; omega

theorem parseElemsWith_fuel (pv1 pv2 : List Char → Option (JValue × List Char))
    (hc : Consumes pv1) (a : Nat) :
    ∀ (b : Nat) (cs : List Char), cs.length < a → cs.length < b →
      (∀ ys : List Char, ys.length ≤ cs.length → pv1 ys = pv2 ys) →
      parseElemsWith pv1 a cs = parseElemsWith pv2 b cs := by
  induction a with
  | zero => intro b cs ha; omega
  | succ a ih =>
    intro b cs ha hb hagree
    obtain ⟨b, rfl⟩ : ∃ k, b = k + 1 := ⟨b - 1, by omega⟩
    rw [parseElemsWith, parseElemsWith, ← hagree cs (le_refl _)]
    cases hv : pv1 cs with
    | none => rfl
    | some res =>
      obtain ⟨v, r⟩ := res
      have hr := hc _ _ _ hv
      have hw := skipWs_length_le r
      simp only
      cases hs : skipWs r with
      | nil => rfl
      | cons c r1 =>
        rw [hs] at hw
        simp only [List.length_cons] at hw
        have hw1 := skipWs_length_le r1
        simp only
        rw [ih b (skipWs r1) (by omega) (by omega)
          (fun ys hys => hagree ys (by omega))]

theorem parseMembersWith_fuel (pv1 pv2 : List Char → Option (JValue × List Char))
    (hc : Consumes pv1) (a : Nat) :
    ∀ (b : Nat) (cs : List Char), cs.length < a → cs.length < b →
      (∀ ys : List Char, ys.length ≤ cs.length → pv1 ys = pv2 ys) →
      parseMembersWith pv1 a cs = parseMembersWith pv2 b cs := by
  induction a with
  | zero => intro b cs ha; omega
  | succ a ih =>
    intro b cs ha hb hagree
    obtain ⟨b, rfl⟩ : ∃ k, b = k + 1 := ⟨b - 1, by omega⟩
    cases cs with
    | nil => simp [parseMembersWith]
    | cons q r0 =>
      rw [parseMembersWith, parseMembersWith]
      simp only [List.length_cons] at ha hb hagree
      by_cases hq : q = '"'
      · simp only [if_pos hq]
        cases hk : parseStringBody none r0 with
        | none => rfl
        | some res =>
          obtain ⟨k, r1⟩ := res
          have h1 := parseStringBody_length r0.length none r0 k r1 (le_refl _) hk
          have hw1 := skipWs_length_le r1
          simp only
          cases hs : skipWs r1 with
          | nil => rfl
          | cons c r2 =>
            rw [hs] at hw1
            simp only [List.length_cons] at hw1
            have hw2 := skipWs_length_le r2
            simp only
            by_cases hcol : c = ':'
            · simp only [if_pos hcol]
              rw [← hagree (skipWs r2) (by omega)]
              cases hv : pv1 (skipWs r2) with
              | none => rfl
              | some res2 =>
                obtain ⟨v, r3⟩ := res2
                have h3 := hc _ _ _ hv
                have hw3 := skipWs_length_le r3
                simp only
                cases hs3 : skipWs r3 with
                | nil => rfl
                | cons d r4 =>
                  rw [hs3] at hw3
                  simp only [List.length_cons] at hw3
                  have hw4 := skipWs_length_le r4
                  simp only
                  rw [ih b (skipWs r4) (by omega) (by omega)
                    (fun ys hys => hagree ys (by omega))]
            · simp only [if_neg hcol]
      · simp only [if_neg hq]

theorem parseValue_succ (n depth : Nat) (cs : List Char) :
    parseValue (n + 1) depth cs =
    match cs with
    | [] => none
    | c :: rest =>
      if c = '"' then
        match parseStringBody none rest with
        | none => none
        | some (s, r) => some (JValue.str s, r)
      else if c = '[' then
        if maxNestingDepth ≤ depth then none
        else
          match skipWs rest with
          | [] => none
          | d :: r1 =>
            if d = ']' then some (JValue.arr [], r1)
            else
              match parseElemsWith (parseValue n (depth + 1)) n (d :: r1) with
              | none => none
              | some (vs, r2) => some (JValue.arr vs, r2)
      else if c = '\x7b' then
        if maxNestingDepth ≤ depth then none
        else
          match skipWs rest with
          | [] => none
          | d :: r1 =>
            if d = '\x7d' then some (JValue.obj [], r1)
            else
              match parseMembersWith (parseValue n (depth + 1)) n (d :: r1) with
              | none => none
              | some (kvs, r2) => some (JValue.obj kvs, r2)
      else if c = 't' then
        match stripWord ['r', 'u', 'e'] rest with
        | none => none
        | some r => some (JValue.bool true, r)
      else if c = 'f' then
        match stripWord ['a', 'l', 's', 'e'] rest with
        | none => none
        | some r => some (JValue.bool false, r)
      else if c = 'n' then
        match stripWord ['u', 'l', 'l'] rest with
        | none => none
        | some r => some (JValue.null, r)
      else
        match parseNumber cs with
        | none => none
        | some (t, r) => some (JValue.num t, r) := by
  rw [parseValue.eq_def]

/-- The fuel never decides the result of `parseValue`: any two amounts of fuel
above the length of the input give the same result. -/
theorem parseValue_fuel (n : Nat) :
    ∀ (m depth : Nat) (cs : List Char), cs.length < n → cs.length < m →
      parseValue n depth cs = parseValue m depth cs := by
  induction n with
  | zero => intro m depth cs hn; omega
  | succ k ih =>
    intro m depth cs hn hm
    obtain ⟨j, rfl⟩ : ∃ j, m = j + 1 := ⟨m - 1, by omega⟩
    rw [parseValue_succ k, parseValue_succ j]
    cases cs with
    | nil => rfl
    | cons c rest =>
      simp only [List.length_cons] at hn hm
      have hw := skipWs_length_le rest
      simp only
      cases hs : skipWs rest with
      | nil => rfl
      | cons d r1 =>
        rw [hs] at hw
        simp only [List.length_cons] at hw
        have he : parseElemsWith (parseValue k (depth + 1)) k (d :: r1) =
            parseElemsWith (parseValue j (depth + 1)) j (d :: r1) :=
          parseElemsWith_fuel _ _ (parseValue_length k (depth + 1)) k j (d :: r1)
            (by simp only [List.length_cons]; omega) (by simp only [List.length_cons]; omega)
            (fun ys hys => ih j (depth + 1) ys (by simp only [List.length_cons] at hys; omega)
              (by simp only [List.length_cons] at hys; omega))
        have hmem : parseMembersWith (parseValue k (depth + 1)) k (d :: r1) =
            parseMembersWith (parseValue j (depth + 1)) j (d :: r1) :=
          parseMembersWith_fuel _ _ (parseValue_length k (depth + 1)) k j (d :: r1)
            (by simp only [List.length_cons]; omega) (by simp only [List.length_cons]; omega)
            (fun ys hys => ih j (depth + 1) ys (by simp only [List.length_cons] at hys; omega)
              (by simp only [List.length_cons] at hys; omega))
        simp only [he, hmem]

theorem parseJSON_fuel (data : List Char) (m : Nat) (h : data.length < m) :
    parseJSON data =
      match parseValue m 0 (skipWs data) with
      | none => none
      | some (v, rest) => if skipWs rest = [] then some v else none := by
  have hw := skipWs_length_le data
  rw [parseJSON, parseValue_fuel (data.length + 1) m 0 (skipWs data) (by omega) (by omega)]

/-! ## Parsing the compact encoding -/

theorem appendString_append (s : GoString) (tail : List Char) :
    appendString s ++ tail = '"' :: (escapeAll s ++ '"' :: tail) := by
  simp [appendString]

theorem skipWs_nonspace (c : Char) (t : List Char) (h : isWs c = false) :
    skipWs (c :: t) = c :: t := by
  rw [skipWs, h]
  rfl

/-- A compact object with two string members parses to these two members. -/
theorem parseValue_object2 (n depth : Nat) (k1 k2 s1 s2 : GoString) (tail : List Char)
    (hdepth : depth < maxNestingDepth) :
    parseValue (n + 3) depth
        ('\x7b' :: (appendString k1 ++ ':' :: (appendString s1 ++ ',' ::
          (appendString k2 ++ ':' :: (appendString s2 ++ '\x7d' :: tail))))) =
      some (JValue.obj [(k1, JValue.str s1), (k2, JValue.str s2)], tail) := by
  have hlast : parseMembersWith (parseValue (n + 2) (depth + 1)) (n + 1)
      (appendString k2 ++ ':' :: (appendString s2 ++ '\x7d' :: tail)) =
      some ([(k2, JValue.str s2)], tail) := by
    rw [appendString_append]
    exact parseMembersWith_last _ n _ _ _
      (':' :: (appendString s2 ++ '\x7d' :: tail)) (appendString s2 ++ '\x7d' :: tail)
      ('\x7d' :: tail) tail
      (parseStringBody_escapeAll k2 _)
      (skipWs_nonspace _ _ (by decide))
      (by rw [skipWs_appendString]; exact parseValue_string (n + 1) (depth + 1) s2 _)
      (skipWs_nonspace _ _ (by decide))
  have hall : parseMembersWith (parseValue (n + 2) (depth + 1)) (n + 2)
      (appendString k1 ++ ':' :: (appendString s1 ++ ',' ::
        (appendString k2 ++ ':' :: (appendString s2 ++ '\x7d' :: tail)))) =
      some ([(k1, JValue.str s1), (k2, JValue.str s2)], tail) := by
    rw [appendString_append]
    exact parseMembersWith_more _ (n + 1) _ _ _ _
      (':' :: (appendString s1 ++ ',' ::
        (appendString k2 ++ ':' :: (appendString s2 ++ '\x7d' :: tail))))
      (appendString s1 ++ ',' ::
        (appendString k2 ++ ':' :: (appendString s2 ++ '\x7d' :: tail)))
      (',' :: (appendString k2 ++ ':' :: (appendString s2 ++ '\x7d' :: tail)))
      (appendString k2 ++ ':' :: (appendString s2 ++ '\x7d' :: tail))
      tail
      (parseStringBody_escapeAll k1 _)
      (skipWs_nonspace _ _ (by decide))
      (by rw [skipWs_appendString]; exact parseValue_string (n + 1) (depth + 1) s1 _)
      (skipWs_nonspace _ _ (by decide))
      (by rw [skipWs_appendString]; exact hlast)
  have hnot : ¬ maxNestingDepth ≤ depth := by omega
  rw [parseValue_succ]
  simp only [hnot, if_false]
  rw [skipWs_appendString, appendString_append]
  rw [appendString_append] at hall
  simp [hall]

theorem keyMot_eq : keyMot = appendString ['m', 'o', 't'] := by decide

theorem keyDefinition_eq :
    keyDefinition = appendString ['d', 'e', 'f', 'i', 'n', 'i', 't', 'i', 'o', 'n'] := by
  decide

theorem parseValue_marshalEntry (n depth : Nat) (e : Entry) (tail : List Char)
    (hdepth : depth < maxNestingDepth) :
    parseValue (n + 3) depth (marshalEntry e ++ tail) = some (entryValue e, tail) := by
  have h := parseValue_object2 n depth ['m', 'o', 't']
    ['d', 'e', 'f', 'i', 'n', 'i', 't', 'i', 'o', 'n'] e.Mot e.Definition tail hdepth
  have hshape : marshalEntry e ++ tail =
      '\x7b' :: (appendString ['m', 'o', 't'] ++ ':' :: (appendString e.Mot ++ ',' ::
        (appendString ['d', 'e', 'f', 'i', 'n', 'i', 't', 'i', 'o', 'n'] ++ ':' ::
          (appendString e.Definition ++ '\x7d' :: tail)))) := by
    rw [← keyMot_eq, ← keyDefinition_eq]
    simp [marshalEntry]
  rw [hshape, h]
  rfl

/-- The JSON object of a response of `GetEntryHandler`. -/
theorem parseValue_responseJSON (n depth : Nat) (word definition : GoString)
    (tail : List Char) (hdepth : depth < maxNestingDepth) :
    parseValue (n + 3) depth (responseJSON word definition ++ tail) =
      some (JValue.obj
        [(['d', 'e', 'f', 'i', 'n', 'i', 't', 'i', 'o', 'n'], JValue.str definition),
          (['m', 'o', 't'], JValue.str word)], tail) := by
  have h := parseValue_object2 n depth ['d', 'e', 'f', 'i', 'n', 'i', 't', 'i', 'o', 'n']
    ['m', 'o', 't'] definition word tail hdepth
  have hshape : responseJSON word definition ++ tail =
      '\x7b' :: (appendString ['d', 'e', 'f', 'i', 'n', 'i', 't', 'i', 'o', 'n'] ++ ':' ::
        (appendString definition ++ ',' ::
        (appendString ['m', 'o', 't'] ++ ':' :: (appendString word ++ '\x7d' :: tail)))) := by
    rw [← keyMot_eq, ← keyDefinition_eq]
    simp [responseJSON]
  rw [hshape, h]

theorem three_le_length_responseJSON (word definition : GoString) :
    3 ≤ (responseJSON word definition).length := by
  simp [responseJSON, keyDefinition]

theorem parseJSON_responseJSON (word definition : GoString) :
    parseJSON (responseJSON word definition) =
      some (JValue.obj
        [(['d', 'e', 'f', 'i', 'n', 'i', 't', 'i', 'o', 'n'], JValue.str definition),
          (['m', 'o', 't'], JValue.str word)]) := by
  have hlen := three_le_length_responseJSON word definition
  have h := parseValue_responseJSON ((responseJSON word definition).length - 2) 0
    word definition [] (by decide)
  have hfuel : (responseJSON word definition).length - 2 + 3 =
      (responseJSON word definition).length + 1 := by omega
  rw [hfuel, List.append_nil] at h
  have hskip : skipWs (responseJSON word definition) = responseJSON word definition := by
    simp [responseJSON, skipWs, isWs]
  rw [parseJSON, hskip, h]
  simp [skipWs]

theorem marshalElems_head (e : Entry) (es : List Entry) (tail : List Char) :
    ∃ t, marshalElems (e :: es) ++ tail = '\x7b' :: t := by
  cases es with
  | nil => simp [marshalElems, marshalEntry]
  | cons e2 es => simp [marshalElems, marshalEntry]

theorem skipWs_marshalElems (e : Entry) (es : List Entry) (tail : List Char) :
    skipWs (marshalElems (e :: es) ++ tail) = marshalElems (e :: es) ++ tail := by
  obtain ⟨t, ht⟩ := marshalElems_head e es tail
  rw [ht]
  simp [skipWs, isWs]

theorem parseElemsWith_marshalElems (m depth : Nat) (hdepth : depth < maxNestingDepth)
    (es : List Entry) :
    ∀ (e : Entry) (n : Nat) (tail : List Char), es.length < n →
      parseElemsWith (parseValue (m + 3) depth) n (marshalElems (e :: es) ++ ']' :: tail) =
        some ((e :: es).map entryValue, tail) := by
  induction es with
  | nil =>
    intro e n tail hn
    obtain ⟨k, rfl⟩ : ∃ k, n = k + 1 := ⟨n - 1, by simp at hn; omega⟩
    have hshape : marshalElems [e] ++ ']' :: tail = marshalEntry e ++ ']' :: tail := by
      simp [marshalElems]
    rw [hshape, parseElemsWith, parseValue_marshalEntry _ _ _ _ hdepth]
    simp [skipWs, isWs]
  | cons e2 es ih =>
    intro e n tail hn
    obtain ⟨k, rfl⟩ : ∃ k, n = k + 1 := ⟨n - 1, by simp at hn; omega⟩
    have hshape : marshalElems (e :: e2 :: es) ++ ']' :: tail =
        marshalEntry e ++ ',' :: (marshalElems (e2 :: es) ++ ']' :: tail) := by
      simp [marshalElems]
    have hrest := ih e2 k tail (by simp at hn ⊢; omega)
    rw [hshape, parseElemsWith, parseValue_marshalEntry _ _ _ _ hdepth]
    simp [skipWs, isWs, skipWs_marshalElems, hrest]

theorem length_lt_marshalElems (e : Entry) (es : List Entry) :
    es.length + 2 < (marshalElems (e :: es)).length := by
  induction es generalizing e with
  | nil => simp [marshalElems, marshalEntry, keyMot]
  | cons e2 es ih =>
    have : marshalElems (e :: e2 :: es) = marshalEntry e ++ [','] ++ marshalElems (e2 :: es) := by
      simp [marshalElems]
    rw [this]
    have h2 := ih e2
    simp only [List.length_append, List.length_cons] at h2 ⊢
    omega

/-- The compact encoding of a non-nil slice parses to the array of its entries. -/
theorem parseJSON_compactJSON (es : List Entry) :
    parseJSON (compactJSON (some es)) = some (JValue.arr (es.map entryValue)) := by
  cases es with
  | nil => rfl
  | cons e es =>
    have hlen := length_lt_marshalElems e es
    obtain ⟨t, ht⟩ := marshalElems_head e es [']']
    have helems := parseElemsWith_marshalElems
      ((compactJSON (some (e :: es))).length - 3) 1 (by decide) es e
      ((compactJSON (some (e :: es))).length) []
      (by simp only [compactJSON, List.length_append, List.length_cons]; omega)
    have hfuel : (compactJSON (some (e :: es))).length - 3 + 3 =
        (compactJSON (some (e :: es))).length := by
      simp only [compactJSON, List.length_append, List.length_cons]; omega
    rw [hfuel] at helems
    have hshape : compactJSON (some (e :: es)) = '[' :: (marshalElems (e :: es) ++ [']']) := by
      simp [compactJSON]
    rw [parseJSON]
    have hskip : skipWs (compactJSON (some (e :: es))) =
        '[' :: (marshalElems (e :: es) ++ [']']) := by
      rw [hshape]; simp [skipWs, isWs]
    rw [hskip, parseValue_succ]
    have hnot : ¬ maxNestingDepth ≤ 0 := by decide
    simp only [hnot, if_false]
    rw [skipWs_marshalElems, ht]
    simp only
    rw [← ht, helems]
    simp [skipWs]

/-! ## `AddEntryHandler` -/

theorem Lock_free (w : World) (h : w.d.mutex = false) : Lock w = some (locked w) := by
  simp [Lock, h, locked]

theorem Lock_held (w : World) (h : w.d.mutex = true) : Lock w = none := by
  simp [Lock, h]

theorem saveToFile_held (w : World) (h : w.d.mutex = true) : saveToFile w = Run.blocked w := by
  simp [saveToFile, Lock_held w h]

theorem AddEntryHandler_run (w : World) (r : Request) (newEntry : Entry)
    (hm : r.method = MethodPost) (hd : Decode r.body = .ok newEntry) :
    AddEntryHandler w r =
      if w.d.mutex then Run.blocked w
      else Run.blocked (appendEntry (locked w) newEntry) := by
  unfold AddEntryHandler
  rw [if_neg (by simp [hm]), hd]
  by_cases h : w.d.mutex = true
  · simp [Lock_held w h, h]
  · have hf : w.d.mutex = false := by simpa using h
    simp only [Lock_free w hf, hf]
    rw [saveToFile_held _ (by simp [appendEntry, locked])]
    simp

/-- C1: a POST whose body decodes to an entry never gets its 201: the handler takes
the mutex, appends, and then blocks forever inside `saveToFile`, which asks for the
mutex the handler still holds; nothing is written to the response or to the file. -/
theorem AddEntryHandler_blocks (w : World) (r : Request) (newEntry : Entry)
    (hm : r.method = MethodPost) (hd : Decode r.body = .ok newEntry)
    (hfree : w.d.mutex = false) :
    AddEntryHandler w r =
      Run.blocked
        { w with
          d := { w.d with
            entries := goAppend w.d.entries newEntry, spare := w.d.spare.tail, mutex := true },
          trace := w.trace ++ [Event.lock] } := by
  rw [AddEntryHandler_run w r newEntry hm hd]
  simp [hfree, appendEntry, locked]

theorem AddEntryHandler_blocks_witness :
    AddEntryHandler freshWorld addChat =
      Run.blocked
        { freshWorld with
          d := { freshWorld.d with
            entries := goAppend freshWorld.d.entries chat, spare := freshWorld.d.spare.tail,
            mutex := true },
          trace := freshWorld.trace ++ [Event.lock] } :=
  AddEntryHandler_blocks freshWorld addChat chat (by decide) (by rfl) (by decide)

/-- C5: once `AddEntryHandler` has appended the entry of a POST, the run stays
blocked with the mutex held, so a GET for that word (any GET with a non-empty
query) never gets its 200: `GetEntryHandler` blocks on the mutex as well. -/
theorem GetEntryHandler_after_add_blocks (L : Lib) (w : World) (r g : Request)
    (newEntry : Entry) (hm : r.method = MethodPost) (hd : Decode r.body = .ok newEntry)
    (hfree : w.d.mutex = false) (hg : g.method = MethodGet) (ht : TrimSpace g.mot ≠ []) :
    elems (Run.world (AddEntryHandler w r)).d.entries = elems w.d.entries ++ [newEntry] ∧
    GetEntryHandler L (Run.world (AddEntryHandler w r)) g =
      Run.blocked (Run.world (AddEntryHandler w r)) := by
  rw [AddEntryHandler_run w r newEntry hm hd]
  simp only [hfree, Bool.false_eq_true, if_false, Run.world]
  refine ⟨rfl, ?_⟩
  unfold GetEntryHandler
  rw [if_neg (by simp [hg]), if_neg ht, Lock_held _ (by simp [appendEntry, locked])]

theorem GetEntryHandler_after_add_blocks_witness :
    elems (Run.world (AddEntryHandler freshWorld addChat)).d.entries =
      elems freshWorld.d.entries ++ [chat] ∧
    GetEntryHandler asciiLib (Run.world (AddEntryHandler freshWorld addChat)) getChatCapital =
      Run.blocked (Run.world (AddEntryHandler freshWorld addChat)) :=
  GetEntryHandler_after_add_blocks asciiLib freshWorld addChat getChatCapital chat
    (by decide) (by rfl) (by decide) (by decide) (by decide)

/-! ## The loop of `RemoveEntryHandler` -/

theorem removeLoop_found (L : Lib) (word : GoString) (es : List Entry) :
    ∀ (acc : Entries) (f : Bool),
      (removeLoop L word es (acc, f)).2 = (f || es.any (matchesWord L word)) := by
  induction es with
  | nil => intro acc f; simp [removeLoop]
  | cons e es ih =>
    intro acc f
    by_cases h : ToLower L.lower e.Mot = word
    · simp [removeLoop, h, ih, matchesWord]
    · simp [removeLoop, h, ih, matchesWord]

theorem removeLoop_elems (L : Lib) (word : GoString) (es : List Entry) :
    ∀ (acc : Entries) (f : Bool),
      elems (removeLoop L word es (acc, f)).1 =
        elems acc ++ es.filter (fun e => !matchesWord L word e) := by
  induction es with
  | nil => intro acc f; simp [removeLoop]
  | cons e es ih =>
    intro acc f
    by_cases h : ToLower L.lower e.Mot = word
    · simp [removeLoop, h, ih, matchesWord]
    · rw [removeLoop, if_neg h, ih]
      have : elems (goAppend acc e) = elems acc ++ [e] := rfl
      simp [this, matchesWord, h]

theorem RemoveEntryHandler_found (L : Lib) (w : World) (r : Request)
    (hm : r.method = MethodDelete) (ht : TrimSpace r.mot ≠ []) (hfree : w.d.mutex = false)
    (hfound : ∃ e ∈ elems w.d.entries, ToLower L.lower e.Mot = queryWord L r) :
    RemoveEntryHandler L w r =
      Run.blocked (installEntries (locked w)
        (removeLoop L (queryWord L r) (elems w.d.entries) (none, false)).1) := by
  have hf := removeLoop_found L (queryWord L r) (elems w.d.entries) none false
  have hany : (elems w.d.entries).any (matchesWord L (queryWord L r)) = true := by
    obtain ⟨e, he, hmatch⟩ := hfound
    exact List.any_eq_true.mpr ⟨e, he, by simp [matchesWord, hmatch]⟩
  rw [hany] at hf
  unfold RemoveEntryHandler
  rw [if_neg (by simp [hm]), if_neg ht, Lock_free w hfree]
  simp only [locked] at *
  generalize hloop : removeLoop L (ToLower L.lower (TrimSpace r.mot)) (elems w.d.entries)
    (none, false) = res
  simp only [queryWord, hloop] at hf
  obtain ⟨upd, f⟩ := res
  simp only [Bool.false_or] at hf
  subst hf
  simp only
  rw [saveToFile_held _ (by simp [installEntries])]
  simp [queryWord, hloop]

/-! ## `RemoveEntryHandler` -/

/-- C2: a DELETE whose trimmed word matches a stored entry never gets its 204: the
handler takes the mutex, installs the reduced sequence, and then blocks forever
inside `saveToFile`, which asks for the mutex the handler still holds; the file
is not written and no response is sent. -/
theorem RemoveEntryHandler_blocks (L : Lib) (w : World) (r : Request)
    (hm : r.method = MethodDelete) (ht : TrimSpace r.mot ≠ []) (hfree : w.d.mutex = false)
    (hfound : ∃ e ∈ elems w.d.entries, ToLower L.lower e.Mot = queryWord L r) :
    ∃ w2, RemoveEntryHandler L w r = Run.blocked w2 ∧ w2.file = w.file ∧
      w2.d.mutex = true ∧ w2.trace = w.trace ++ [Event.lock] := by
  refine ⟨_, RemoveEntryHandler_found L w r hm ht hfree hfound, ?_, ?_, ?_⟩ <;>
    simp [installEntries, locked]

theorem RemoveEntryHandler_blocks_witness :
    ∃ w2, RemoveEntryHandler asciiLib sampleWorld removeChat = Run.blocked w2 ∧
      w2.file = sampleWorld.file ∧ w2.d.mutex = true ∧
      w2.trace = sampleWorld.trace ++ [Event.lock] :=
  RemoveEntryHandler_blocks asciiLib sampleWorld removeChat (by decide) (by decide) (by decide)
    ⟨⟨"Chat".toList, "animal".toList⟩, by decide, by decide⟩

/-- C3: when the trimmed query matches at least one entry ignoring case, the
sequence `RemoveEntryHandler` installs in the store (the one `saveToFile` is then
called on) is the original sequence filtered to the entries whose lowered word
differs from the lowered query: all matches go, the others stay in order. -/
theorem RemoveEntryHandler_installs_filter (L : Lib) (w : World) (r : Request)
    (hm : r.method = MethodDelete) (ht : TrimSpace r.mot ≠ []) (hfree : w.d.mutex = false)
    (hfound : ∃ e ∈ elems w.d.entries, ToLower L.lower e.Mot = queryWord L r) :
    elems (Run.world (RemoveEntryHandler L w r)).d.entries =
      (elems w.d.entries).filter
        (fun e => decide (ToLower L.lower e.Mot ≠ ToLower L.lower (TrimSpace r.mot))) := by
  rw [RemoveEntryHandler_found L w r hm ht hfree hfound]
  simp only [Run.world, installEntries]
  rw [removeLoop_elems]
  simp [elems, matchesWord, queryWord]

theorem RemoveEntryHandler_installs_filter_witness :
    elems (Run.world (RemoveEntryHandler asciiLib sampleWorld removeChat)).d.entries =
      (elems sampleWorld.d.entries).filter
        (fun e => decide (ToLower asciiLib.lower e.Mot ≠
          ToLower asciiLib.lower (TrimSpace removeChat.mot))) :=
  RemoveEntryHandler_installs_filter asciiLib sampleWorld removeChat (by decide) (by decide)
    (by decide) ⟨⟨"Chat".toList, "animal".toList⟩, by decide, by decide⟩

/-- C4: when the trimmed query is non-empty and matches no entry ignoring case,
`RemoveEntryHandler` answers 404 and returns with the store and the file as they
were: the only events are taking and releasing the mutex. -/
theorem RemoveEntryHandler_not_found (L : Lib) (w : World) (r : Request)
    (hm : r.method = MethodDelete) (ht : TrimSpace r.mot ≠ []) (hfree : w.d.mutex = false)
    (hnone : ∀ e ∈ elems w.d.entries,
      ToLower L.lower e.Mot ≠ ToLower L.lower (TrimSpace r.mot)) :
    RemoveEntryHandler L w r =
      Run.done
        (httpError ("Not Found: Mot '".toList ++ r.mot ++
          "' not found in the dictionary".toList) 404)
        { w with trace := w.trace ++ [Event.lock, Event.unlock] } := by
  have hf := removeLoop_found L (ToLower L.lower (TrimSpace r.mot)) (elems w.d.entries)
    none false
  have hany : (elems w.d.entries).any (matchesWord L (ToLower L.lower (TrimSpace r.mot)))
      = false := by
    rw [List.any_eq_false]
    intro e he
    simpa [matchesWord] using hnone e he
  rw [hany] at hf
  unfold RemoveEntryHandler
  rw [if_neg (by simp [hm]), if_neg ht, Lock_free w hfree]
  simp only [locked] at *
  generalize removeLoop L (ToLower L.lower (TrimSpace r.mot)) (elems w.d.entries)
    (none, false) = res at hf
  obtain ⟨upd, f⟩ := res
  simp only [Bool.or_self] at hf
  subst hf
  cases w with
  | mk d file readErr writeErr trace =>
    cases d with
    | mk filePath entries mutex =>
      simp only at hfree
      subst hfree
      simp [Unlock]

theorem RemoveEntryHandler_not_found_witness :
    RemoveEntryHandler asciiLib sampleWorld removeLoup =
      Run.done
        (httpError ("Not Found: Mot '".toList ++ removeLoup.mot ++
          "' not found in the dictionary".toList) 404)
        { sampleWorld with trace := sampleWorld.trace ++ [Event.lock, Event.unlock] } :=
  RemoveEntryHandler_not_found asciiLib sampleWorld removeLoup (by decide) (by decide)
    (by decide) (by decide)

/-! ## The loop of `GetEntryHandler` -/

theorem getLoop_none (L : Lib) (word : GoString) (es : List Entry) :
    ∀ w : World, (∀ e ∈ es, ToLower L.lower e.Mot ≠ word) →
      getLoop L word es w =
        (([], false), { w with trace := w.trace ++ comparisons L word es }) := by
  induction es with
  | nil => intro w _; simp [getLoop, comparisons]
  | cons e es ih =>
    intro w h
    have he : ToLower L.lower e.Mot ≠ word := h e (List.mem_cons_self _ _)
    rw [getLoop, if_neg he, ih _ (fun x hx => h x (List.mem_cons_of_mem _ hx))]
    simp [printLine, comparisons]

theorem getLoop_first (L : Lib) (word : GoString) (pre : List Entry) (e : Entry)
    (post : List Entry) :
    ∀ w : World, (∀ x ∈ pre, ToLower L.lower x.Mot ≠ word) → ToLower L.lower e.Mot = word →
      getLoop L word (pre ++ e :: post) w =
        ((e.Definition, true),
          { w with trace := w.trace ++ comparisons L word (pre ++ [e]) }) := by
  induction pre with
  | nil =>
    intro w _ he
    simp only [List.nil_append]
    rw [getLoop, if_pos he]
    simp [printLine, comparisons]
  | cons x pre ih =>
    intro w h he
    have hx : ToLower L.lower x.Mot ≠ word := h x (List.mem_cons_self _ _)
    simp only [List.cons_append]
    rw [getLoop, if_neg hx, ih _ (fun y hy => h y (List.mem_cons_of_mem _ hy)) he]
    simp [printLine, comparisons]

theorem exists_first_match (L : Lib) (word : GoString) (es : List Entry)
    (h : ∃ e ∈ es, ToLower L.lower e.Mot = word) :
    ∃ pre e post, es = pre ++ e :: post ∧ (∀ x ∈ pre, ToLower L.lower x.Mot ≠ word) ∧
      ToLower L.lower e.Mot = word := by
  induction es with
  | nil => obtain ⟨e, he, _⟩ := h; simp at he
  | cons x es ih =>
    by_cases hx : ToLower L.lower x.Mot = word
    · exact ⟨[], x, es, rfl, by simp, hx⟩
    · obtain ⟨e, he, hmatch⟩ := h
      have he2 : e ∈ es := by
        rcases List.mem_cons.mp he with rfl | h2
        · exact absurd hmatch hx
        · exact h2
      obtain ⟨pre, e1, post, hsplit, hpre, h1⟩ := ih ⟨e, he2, hmatch⟩
      refine ⟨x :: pre, e1, post, by simp [hsplit], ?_, h1⟩
      intro y hy
      rcases List.mem_cons.mp hy with rfl | h2
      · exact hx
      · exact hpre y h2

theorem GetEntryHandler_miss (L : Lib) (w : World) (r : Request)
    (hm : r.method = MethodGet) (ht : TrimSpace r.mot ≠ []) (hfree : w.d.mutex = false)
    (hnone : ∀ e ∈ elems w.d.entries, ToLower L.lower e.Mot ≠ queryWord L r) :
    GetEntryHandler L w r =
      Run.done
        (httpError ("Not Found: Mot '".toList ++ queryWord L r ++
          "' not found in the dictionary".toList) 404)
        { w with
          trace := w.trace ++ getEvents L (queryWord L r) (elems w.d.entries) false } := by
  unfold GetEntryHandler
  rw [if_neg (by simp [hm]), if_neg ht, Lock_free w hfree]
  have hl := getLoop_none L (queryWord L r) (elems w.d.entries)
    (printLine (locked w) ("Received GET request with 'mot' parameter: ".toList ++
      queryWord L r ++ ['\n'])) hnone
  simp only [queryWord] at hl ⊢
  have hent : (locked w).d.entries = w.d.entries := rfl
  rw [hent, hl]
  cases w with
  | mk d file readErr writeErr trace =>
    cases d with
    | mk filePath entries mutex =>
      simp only at hfree
      subst hfree
      simp [Unlock, printLine, locked, getEvents]

theorem GetEntryHandler_hit (L : Lib) (w : World) (r : Request) (pre : List Entry) (e : Entry)
    (post : List Entry)
    (hm : r.method = MethodGet) (ht : TrimSpace r.mot ≠ []) (hfree : w.d.mutex = false)
    (hsplit : elems w.d.entries = pre ++ e :: post)
    (hpre : ∀ x ∈ pre, ToLower L.lower x.Mot ≠ queryWord L r)
    (he : ToLower L.lower e.Mot = queryWord L r) :
    GetEntryHandler L w r =
      Run.done (writeJSON (responseJSON (queryWord L r) e.Definition))
        { w with trace := w.trace ++ getEvents L (queryWord L r) (pre ++ [e]) true } := by
  unfold GetEntryHandler
  rw [if_neg (by simp [hm]), if_neg ht, Lock_free w hfree]
  have hl := getLoop_first L (queryWord L r) pre e post
    (printLine (locked w) ("Received GET request with 'mot' parameter: ".toList ++
      queryWord L r ++ ['\n'])) hpre he
  simp only [queryWord] at hl ⊢
  have hent : (locked w).d.entries = w.d.entries := rfl
  rw [hent, hsplit, hl]
  cases w with
  | mk d file readErr writeErr trace =>
    cases d with
    | mk filePath entries mutex =>
      simp only at hfree
      subst hfree
      simp [Unlock, printLine, locked, getEvents, marshalResponse]

/-! ## `GetEntryHandler` -/

/-- What a GET answers on a store whose mutex is free and whose sequence is `es`
with the entry `{mot: word, definition: definition}` appended, where no entry of
`es` equals `word` ignoring case: when the query, once trimmed, is non-empty and
equals `word` ignoring case, the answer is 200 with a JSON object whose
`definition` is `definition`. -/
theorem GetEntryHandler_after_append (L : Lib) (w : World) (r : Request)
    (word definition : GoString)
    (hm : r.method = MethodGet) (ht : TrimSpace r.mot ≠ []) (hfree : w.d.mutex = false)
    (hnew : ∀ e ∈ elems w.d.entries, ToLower L.lower e.Mot ≠ ToLower L.lower word)
    (hq : ToLower L.lower (TrimSpace r.mot) = ToLower L.lower word) :
    ∃ body w2,
      GetEntryHandler L (setEntries w (goAppend w.d.entries ⟨word, definition⟩)) r =
        Run.done
          { status := 200,
            header := [("Content-Type".toList, "application/json".toList)],
            body := body } w2 ∧
      parseJSON body =
        some (JValue.obj
          [("definition".toList, JValue.str definition),
            ("mot".toList, JValue.str (ToLower L.lower (TrimSpace r.mot)))]) ∧
      w2.d.entries = goAppend w.d.entries ⟨word, definition⟩ ∧ w2.file = w.file := by
  have h := GetEntryHandler_hit L (setEntries w (goAppend w.d.entries ⟨word, definition⟩)) r
    (elems w.d.entries) ⟨word, definition⟩ [] hm ht hfree rfl
    (by intro x hx; rw [queryWord, hq]; exact hnew x hx)
    (by rw [queryWord, hq])
  exact ⟨_, _, h, parseJSON_responseJSON _ _, rfl, rfl⟩

/-- A word stored with a leading blank is not found by the query that equals it:
the list handler loads the entry `{" chat", "animal"}` from the file, and
`GetEntryHandler`, which trims the query `" chat"` to `chat`, answers 404. -/
theorem GetEntryHandler_padded_word_not_found :
    ListEntriesHandler asciiLib paddedWorld getList =
      Run.done
        { status := 200,
          header := [("Content-Type".toList, "application/json".toList)],
          body := "[\x7b\"mot\":\" chat\",\"definition\":\"animal\"\x7d]".toList }
        { paddedWorld with
          d := { paddedWorld.d with entries := some [paddedChat] },
          trace := [Event.lock, Event.readFile, Event.unlock] } ∧
    getPadded.mot = paddedChat.Mot ∧
    GetEntryHandler asciiLib
        { paddedWorld with
          d := { paddedWorld.d with entries := some [paddedChat] },
          trace := [Event.lock, Event.readFile, Event.unlock] } getPadded =
      Run.done
        (httpError "Not Found: Mot 'chat' not found in the dictionary".toList 404)
        { paddedWorld with
          d := { paddedWorld.d with entries := some [paddedChat] },
          trace := [Event.lock, Event.readFile, Event.unlock] ++
            getEvents asciiLib "chat".toList [paddedChat] false } := by
  refine ⟨by decide, by decide, by decide⟩

/-- C6: a GET whose trimmed query is non-empty and equals no stored word ignoring
case answers 404 with a message that names the (trimmed, lowered) word, and returns
with the store and the file as they were; in particular so does every such query
on a store that holds no entry. -/
theorem GetEntryHandler_not_found (L : Lib) (w : World) (r : Request)
    (hm : r.method = MethodGet) (ht : TrimSpace r.mot ≠ []) (hfree : w.d.mutex = false) :
    ((∀ e ∈ elems w.d.entries,
        ToLower L.lower e.Mot ≠ ToLower L.lower (TrimSpace r.mot)) →
      GetEntryHandler L w r =
        Run.done
          (httpError ("Not Found: Mot '".toList ++ ToLower L.lower (TrimSpace r.mot) ++
            "' not found in the dictionary".toList) 404)
          { w with
            trace := w.trace ++
              getEvents L (ToLower L.lower (TrimSpace r.mot)) (elems w.d.entries) false }) ∧
    (elems w.d.entries = [] →
      GetEntryHandler L w r =
        Run.done
          (httpError ("Not Found: Mot '".toList ++ ToLower L.lower (TrimSpace r.mot) ++
            "' not found in the dictionary".toList) 404)
          { w with
            trace := w.trace ++ getEvents L (ToLower L.lower (TrimSpace r.mot)) [] false }) := by
  constructor
  · intro hnone
    exact GetEntryHandler_miss L w r hm ht hfree hnone
  · intro hempty
    have h := GetEntryHandler_miss L w r hm ht hfree (by rw [hempty]; simp)
    rw [hempty] at h
    exact h

theorem GetEntryHandler_not_found_witness :
    GetEntryHandler asciiLib sampleWorld getLoup =
        Run.done
          (httpError ("Not Found: Mot '".toList ++
            ToLower asciiLib.lower (TrimSpace getLoup.mot) ++
            "' not found in the dictionary".toList) 404)
          { sampleWorld with
            trace := sampleWorld.trace ++
              getEvents asciiLib (ToLower asciiLib.lower (TrimSpace getLoup.mot))
                (elems sampleWorld.d.entries) false } :=
  (GetEntryHandler_not_found asciiLib sampleWorld getLoup (by decide) (by decide)
    (by decide)).1 (by decide)

/-- C10: a GET whose trimmed query is non-empty and matches a stored word ignoring
case answers 200 with content type JSON and the definition of the first matching
entry of the sequence: the sequence splits as `pre ++ e :: post` with no match in
`pre`, and the body is the JSON object whose `definition` is `e.Definition` and
whose `mot` is the trimmed, lowered query, whatever `post` holds. -/
theorem GetEntryHandler_first_match (L : Lib) (w : World) (r : Request)
    (hm : r.method = MethodGet) (ht : TrimSpace r.mot ≠ []) (hfree : w.d.mutex = false)
    (hfound : ∃ e ∈ elems w.d.entries,
      ToLower L.lower e.Mot = ToLower L.lower (TrimSpace r.mot)) :
    ∃ pre e post body,
      elems w.d.entries = pre ++ e :: post ∧
      (∀ x ∈ pre, ToLower L.lower x.Mot ≠ ToLower L.lower (TrimSpace r.mot)) ∧
      ToLower L.lower e.Mot = ToLower L.lower (TrimSpace r.mot) ∧
      GetEntryHandler L w r =
        Run.done
          { status := 200,
            header := [("Content-Type".toList, "application/json".toList)],
            body := body }
          { w with
            trace := w.trace ++
              getEvents L (ToLower L.lower (TrimSpace r.mot)) (pre ++ [e]) true } ∧
      body =
        "\x7b\"definition\":".toList ++ appendString e.Definition ++ ",\"mot\":".toList ++
          appendString (ToLower L.lower (TrimSpace r.mot)) ++ "\x7d".toList ∧
      parseJSON body =
        some (JValue.obj
          [("definition".toList, JValue.str e.Definition),
            ("mot".toList, JValue.str (ToLower L.lower (TrimSpace r.mot)))]) := by
  obtain ⟨pre, e, post, hsplit, hpre, he⟩ :=
    exists_first_match L (ToLower L.lower (TrimSpace r.mot)) (elems w.d.entries) hfound
  refine ⟨pre, e, post, _, hsplit, hpre, he,
    GetEntryHandler_hit L w r pre e post hm ht hfree hsplit hpre he, ?_,
    parseJSON_responseJSON _ _⟩
  simp [responseJSON, keyDefinition, keyMot, queryWord]

theorem GetEntryHandler_first_match_witness :
    (∃ pre e post body,
      elems sampleWorld.d.entries = pre ++ e :: post ∧
      (∀ x ∈ pre, ToLower asciiLib.lower x.Mot ≠
        ToLower asciiLib.lower (TrimSpace getChat.mot)) ∧
      ToLower asciiLib.lower e.Mot = ToLower asciiLib.lower (TrimSpace getChat.mot) ∧
      GetEntryHandler asciiLib sampleWorld getChat =
        Run.done
          { status := 200,
            header := [("Content-Type".toList, "application/json".toList)],
            body := body }
          { sampleWorld with
            trace := sampleWorld.trace ++
              getEvents asciiLib (ToLower asciiLib.lower (TrimSpace getChat.mot))
                (pre ++ [e]) true } ∧
      body =
        "\x7b\"definition\":".toList ++ appendString e.Definition ++ ",\"mot\":".toList ++
          appendString (ToLower asciiLib.lower (TrimSpace getChat.mot)) ++ "\x7d".toList ∧
      parseJSON body =
        some (JValue.obj
          [("definition".toList, JValue.str e.Definition),
            ("mot".toList, JValue.str (ToLower asciiLib.lower (TrimSpace getChat.mot)))])) ∧
    GetEntryHandler asciiLib sampleWorld getChat =
      Run.done
        { status := 200,
          header := [("Content-Type".toList, "application/json".toList)],
          body := "\x7b\"definition\":\"animal\",\"mot\":\"chat\"\x7d".toList }
        { sampleWorld with
          trace := [Event.lock,
            Event.print "Received GET request with 'mot' parameter: chat\n".toList,
            Event.print "Comparing 'chat' with 'chat'\n".toList,
            Event.print "Word Found: true\n".toList, Event.unlock] } :=
  ⟨GetEntryHandler_first_match asciiLib sampleWorld getChat (by decide) (by decide) (by decide)
    ⟨⟨"Chat".toList, "animal".toList⟩, by decide, by decide⟩, by decide⟩

/-! ## Wrong methods, persistence and `ListEntriesHandler` -/

/-- C7: a request whose method is not the one the handler accepts is answered 405
by each of the four handlers, and the handler returns in the world it was called
in: same entries, same file, and no event at all (no lock taken, no read, no
write), whatever the body and the query are. -/
theorem wrong_method_rejected (L : Lib) (w : World) (r : Request) :
    (r.method ≠ MethodPost →
      AddEntryHandler w r = Run.done (httpError "Method not allowed".toList 405) w) ∧
    (r.method ≠ MethodGet →
      GetEntryHandler L w r = Run.done (httpError "Method not allowed".toList 405) w) ∧
    (r.method ≠ MethodDelete →
      RemoveEntryHandler L w r = Run.done (httpError "Method not allowed".toList 405) w) ∧
    (r.method ≠ MethodGet →
      ListEntriesHandler L w r = Run.done (httpError "Method not allowed".toList 405) w) := by
  refine ⟨?_, ?_, ?_, ?_⟩
  · intro h; unfold AddEntryHandler; rw [if_pos h]
  · intro h; unfold GetEntryHandler; rw [if_pos h]
  · intro h; unfold RemoveEntryHandler; rw [if_pos h]
  · intro h; unfold ListEntriesHandler; rw [if_pos h]

theorem wrong_method_rejected_witness :
    AddEntryHandler sampleWorld putRequest =
        Run.done (httpError "Method not allowed".toList 405) sampleWorld ∧
    GetEntryHandler asciiLib sampleWorld putRequest =
        Run.done (httpError "Method not allowed".toList 405) sampleWorld ∧
    RemoveEntryHandler asciiLib sampleWorld putRequest =
        Run.done (httpError "Method not allowed".toList 405) sampleWorld ∧
    ListEntriesHandler asciiLib sampleWorld putRequest =
        Run.done (httpError "Method not allowed".toList 405) sampleWorld :=
  ⟨(wrong_method_rejected asciiLib sampleWorld putRequest).1 (by decide),
    (wrong_method_rejected asciiLib sampleWorld putRequest).2.1 (by decide),
    (wrong_method_rejected asciiLib sampleWorld putRequest).2.2.1 (by decide),
    (wrong_method_rejected asciiLib sampleWorld putRequest).2.2.2 (by decide)⟩

theorem saveToFile_ok (w : World) (hfree : w.d.mutex = false) (hw : w.writeErr = none) :
    saveToFile w =
      Run.done none
        { w with
          file := some (indentJSON w.d.entries),
          trace := w.trace ++
            [Event.lock, Event.writeFile (indentJSON w.d.entries), Event.unlock] } := by
  unfold saveToFile
  rw [Lock_free w hfree]
  cases w with
  | mk d file readErr writeErr trace =>
    cases d with
    | mk filePath entries mutex =>
      simp only at hfree hw
      subst hfree hw
      simp [locked, MarshalIndent, WriteFile, Unlock]

theorem loadFromFile_ok (L : Lib) (w : World) (data : List Char) (s : Entries)
    (sp : List Entry)
    (hfree : w.d.mutex = false) (hfile : w.file = some data)
    (hu : Unmarshal data w.d.entries w.d.spare = (none, (s, sp))) :
    loadFromFile L w =
      Run.done none
        { w with
          d := { w.d with entries := s, spare := sp },
          trace := w.trace ++ [Event.lock, Event.readFile, Event.unlock] } := by
  unfold loadFromFile
  rw [Lock_free w hfree]
  cases w with
  | mk d file readErr writeErr trace =>
    cases d with
    | mk filePath entries spare mutex =>
      simp only at hfree hfile hu
      subst hfree hfile
      simp [locked, ReadFile, hu, Unlock, storeDecoded]

/-- C8: saving a sequence with `saveToFile` (mutex free, write succeeding) and then
loading the written file with `loadFromFile`, on a store that holds any other
sequence `old` in the meantime, succeeds both times and leaves the store with
exactly the sequence that was saved. -/
theorem save_then_load (L : Lib) (w : World) (s old : Entries)
    (hfree : w.d.mutex = false) (hw : w.writeErr = none) :
    ∃ w1 w2,
      saveToFile (setEntries w s) = Run.done none w1 ∧
      w1.file = some (indentJSON s) ∧
      loadFromFile L (setEntries w1 old) = Run.done none w2 ∧
      w2.d.entries = s ∧ w2.file = some (indentJSON s) := by
  have h1 := saveToFile_ok (setEntries w s) hfree hw
  have h2 := loadFromFile_ok L
    (setEntries
      { setEntries w s with
        file := some (indentJSON s),
        trace := (setEntries w s).trace ++
          [Event.lock, Event.writeFile (indentJSON s), Event.unlock] } old)
    (indentJSON s) s _ hfree rfl (Unmarshal_indentJSON s old _)
  exact ⟨_, _, h1, rfl, h2, rfl, rfl⟩

theorem save_then_load_witness :
    ∃ w1 w2,
      saveToFile (setEntries freshWorld sampleWorld.d.entries) = Run.done none w1 ∧
      w1.file = some (indentJSON sampleWorld.d.entries) ∧
      loadFromFile asciiLib (setEntries w1 (some [chat])) = Run.done none w2 ∧
      w2.d.entries = sampleWorld.d.entries ∧
      w2.file = some (indentJSON sampleWorld.d.entries) :=
  save_then_load asciiLib freshWorld sampleWorld.d.entries (some [chat]) (by decide) (by decide)

theorem lastField_cons_none (f : Field) (k : GoString) (v : JValue)
    (kvs : List (GoString × JValue)) (h : fieldOf k = none) :
    lastField f ((k, v) :: kvs) = lastField f kvs := by
  rw [lastField]
  cases lastField f kvs <;> simp [h]

theorem lastField_cons_str (f g : Field) (k : GoString) (s : GoString)
    (kvs : List (GoString × JValue)) (h : fieldOf k = some g) :
    lastField f ((k, JValue.str s) :: kvs) =
      match lastField f kvs with
      | some t => some t
      | none => if g = f then some s else none := by
  rw [lastField]
  cases lastField f kvs <;> simp [h, strOf]

theorem decodeObject_strings (kvs : List (GoString × JValue)) :
    ∀ base : Entry,
      kvs.all (fun kv => (fieldOf kv.1).isNone || isStr kv.2) = true →
      decodeObject kvs base =
        ({ Mot := (lastField Field.mot kvs).getD base.Mot,
           Definition := (lastField Field.definition kvs).getD base.Definition }, true) := by
  induction kvs with
  | nil => intro base _; rfl
  | cons kv kvs ih =>
    intro base h
    obtain ⟨k, v⟩ := kv
    simp only [List.all_cons, Bool.and_eq_true, Bool.or_eq_true] at h
    obtain ⟨hkv, hrest⟩ := h
    cases hf : fieldOf k with
    | none =>
      rw [decodeObject, hf, ih base hrest, lastField_cons_none _ _ _ _ hf,
        lastField_cons_none _ _ _ _ hf]
    | some g =>
      have hs : isStr v = true := by
        rcases hkv with h1 | h1
        · simp [hf] at h1
        · exact h1
      cases v with
      | str s =>
        rw [decodeObject, hf]
        simp only [storeField]
        rw [ih _ hrest, lastField_cons_str _ _ _ _ _ hf, lastField_cons_str _ _ _ _ _ hf]
        cases g <;>
          cases lastField Field.mot kvs <;> cases lastField Field.definition kvs <;> simp
      | null => simp [isStr] at hs
      | bool b => simp [isStr] at hs
      | num raw => simp [isStr] at hs
      | arr xs => simp [isStr] at hs
      | obj m => simp [isStr] at hs

theorem lastField_isSome (f : Field) (kvs : List (GoString × JValue)) :
    kvs.all (fun kv => (fieldOf kv.1).isNone || isStr kv.2) = true →
    kvs.any (fun kv => decide (fieldOf kv.1 = some f)) = true →
    ∃ s, lastField f kvs = some s := by
  induction kvs with
  | nil => intro _ h; simp at h
  | cons kv kvs ih =>
    intro hall hany
    obtain ⟨k, v⟩ := kv
    simp only [List.all_cons, Bool.and_eq_true, Bool.or_eq_true] at hall
    simp only [List.any_cons, Bool.or_eq_true, decide_eq_true_eq] at hany
    obtain ⟨hkv, hrest⟩ := hall
    cases hl : lastField f kvs with
    | some t => exact ⟨t, by rw [lastField, hl]⟩
    | none =>
      rcases hany with hk | hk
      · have hs : isStr v = true := by
          rcases hkv with h1 | h1
          · simp [hk] at h1
          · exact h1
        cases v with
        | str s => exact ⟨s, by rw [lastField, hl]; simp [hk, strOf]⟩
        | null => simp [isStr] at hs
        | bool b => simp [isStr] at hs
        | num raw => simp [isStr] at hs
        | arr xs => simp [isStr] at hs
        | obj m => simp [isStr] at hs
      · obtain ⟨s, hs⟩ := ih hrest hk
        rw [hl] at hs
        cases hs

theorem decodeEntry_entryObject (v : JValue) (base : Entry) (h : isEntryObject v = true) :
    decodeEntry v base = (entryOfValue v, true) := by
  cases v with
  | obj kvs =>
    simp only [isEntryObject, Bool.and_eq_true] at h
    obtain ⟨⟨hall, hmot⟩, hdef⟩ := h
    obtain ⟨s1, h1⟩ := lastField_isSome Field.mot kvs hall hmot
    obtain ⟨s2, h2⟩ := lastField_isSome Field.definition kvs hall hdef
    simp only [decodeEntry, entryOfValue, entryOfObject]
    rw [decodeObject_strings kvs base hall, h1, h2]
    rfl
  | null => simp [isEntryObject] at h
  | bool b => simp [isEntryObject] at h
  | num raw => simp [isEntryObject] at h
  | arr xs => simp [isEntryObject] at h
  | str s => simp [isEntryObject] at h

theorem decodeElems_entryObjects (vs : List JValue) :
    ∀ old : List Entry, (∀ v ∈ vs, isEntryObject v = true) →
      decodeElems vs old = (vs.map entryOfValue, true) := by
  induction vs with
  | nil => intro old _; rfl
  | cons v vs ih =>
    intro old h
    rw [decodeElems, decodeEntry_entryObject v _ (h v (List.mem_cons_self _ _)),
      ih _ (fun x hx => h x (List.mem_cons_of_mem _ hx))]
    rfl

theorem entryOfValue_entryValue (e : Entry) : entryOfValue (entryValue e) = e := by
  have h1 : fieldOf ['m', 'o', 't'] = some Field.mot := by decide
  have h2 : fieldOf ['d', 'e', 'f', 'i', 'n', 'i', 't', 'i', 'o', 'n'] = some Field.definition := by
    decide
  simp [entryOfValue, entryValue, entryOfObject, lastField, h1, h2, strOf]

theorem isEntryObject_entryValue (e : Entry) : isEntryObject (entryValue e) = true := by
  have h1 : fieldOf ['m', 'o', 't'] = some Field.mot := by decide
  have h2 : fieldOf ['d', 'e', 'f', 'i', 'n', 'i', 't', 'i', 'o', 'n'] = some Field.definition := by
    decide
  simp [isEntryObject, entryValue, h1, h2, isStr]

/-- C9, as stated, fails: the file `[{"definition":"x"}]` is a JSON array that
`loadFromFile` accepts, and the list handler answers 200 on it twice, but with
the word `Chat` of the first entry in memory on the sample store and with an
empty word on a fresh store: the entry listed depends on the sequence the store
held before and holds a word the file does not. -/
theorem ListEntriesHandler_keeps_omitted_field :
    ListEntriesHandler asciiLib { sampleWorld with file := some partialFile } getList =
      Run.done
        { status := 200,
          header := [("Content-Type".toList, "application/json".toList)],
          body := "[\x7b\"mot\":\"Chat\",\"definition\":\"x\"\x7d]".toList }
        { sampleWorld with
          file := some partialFile,
          d := { sampleWorld.d with
            entries := some [⟨"Chat".toList, "x".toList⟩],
            spare := [⟨"chien".toList, "ami".toList⟩, ⟨"CHAT".toList, "felin".toList⟩] },
          trace := [Event.lock, Event.readFile, Event.unlock] } ∧
    ListEntriesHandler asciiLib { freshWorld with file := some partialFile } getList =
      Run.done
        { status := 200,
          header := [("Content-Type".toList, "application/json".toList)],
          body := "[\x7b\"mot\":\"\",\"definition\":\"x\"\x7d]".toList }
        { freshWorld with
          file := some partialFile,
          d := { freshWorld.d with entries := some [⟨[], "x".toList⟩] },
          trace := [Event.lock, Event.readFile, Event.unlock] } := by
  refine ⟨by decide, by decide⟩

/-- C9, amended: when the file holds a JSON array whose elements are all entries
(objects in which every member named `mot` or `definition` holds a string, with
at least one member of each name), a GET to the list handler, on a store whose
mutex is free, answers 200 with content type JSON and the compact JSON array of
the entries of the file, in file order, and leaves exactly those entries in the
store: neither depends on the sequence the store held before. -/
theorem ListEntriesHandler_reloads (L : Lib) (w : World) (r : Request) (data : List Char)
    (vs : List JValue)
    (hm : r.method = MethodGet) (hfree : w.d.mutex = false) (hfile : w.file = some data)
    (hparse : parseJSON data = some (JValue.arr vs))
    (hshape : ∀ v ∈ vs, isEntryObject v = true) :
    ListEntriesHandler L w r =
      Run.done
        { status := 200,
          header := [("Content-Type".toList, "application/json".toList)],
          body := compactJSON (some (vs.map entryOfValue)) }
        { w with
          d := { w.d with
            entries := some (vs.map entryOfValue),
            spare := leftover vs.length (elems w.d.entries ++ w.d.spare) },
          trace := w.trace ++ [Event.lock, Event.readFile, Event.unlock] } ∧
    parseJSON (compactJSON (some (vs.map entryOfValue))) =
      some (JValue.arr ((vs.map entryOfValue).map
        (fun e => JValue.obj [("mot".toList, JValue.str e.Mot),
          ("definition".toList, JValue.str e.Definition)]))) := by
  have hu : Unmarshal data w.d.entries w.d.spare =
      (none, (some (vs.map entryOfValue),
        leftover vs.length (elems w.d.entries ++ w.d.spare))) := by
    unfold Unmarshal
    rw [hparse]
    simp only [decodeSlice, decodeElems_entryObjects vs _ hshape]
    simp
  constructor
  · unfold ListEntriesHandler
    rw [if_neg (by simp [hm]), loadFromFile_ok L w data _ _ hfree hfile hu]
    simp [Marshal, writeJSON]
  · exact parseJSON_compactJSON _

theorem ListEntriesHandler_reloads_witness :
    (ListEntriesHandler asciiLib editedWorld getList =
      Run.done
        { status := 200,
          header := [("Content-Type".toList, "application/json".toList)],
          body := compactJSON (some (editedValues.map entryOfValue)) }
        { editedWorld with
          d := { editedWorld.d with
            entries := some (editedValues.map entryOfValue),
            spare := leftover editedValues.length
              (elems editedWorld.d.entries ++ editedWorld.d.spare) },
          trace := editedWorld.trace ++ [Event.lock, Event.readFile, Event.unlock] } ∧
    parseJSON (compactJSON (some (editedValues.map entryOfValue))) =
      some (JValue.arr ((editedValues.map entryOfValue).map
        (fun e => JValue.obj [("mot".toList, JValue.str e.Mot),
          ("definition".toList, JValue.str e.Definition)])))) ∧
    ListEntriesHandler asciiLib editedWorld getList =
      Run.done
        { status := 200,
          header := [("Content-Type".toList, "application/json".toList)],
          body := ("[\x7b\"mot\":\"loup\",\"definition\":\"sauvage\"\x7d,".toList ++
            "\x7b\"mot\":\"rat\",\"definition\":\"petit\"\x7d]".toList) }
        { editedWorld with
          d := { editedWorld.d with
            entries := some [⟨"loup".toList, "sauvage".toList⟩, ⟨"rat".toList, "petit".toList⟩],
            spare := [⟨"CHAT".toList, "felin".toList⟩] },
          trace := [Event.lock, Event.readFile, Event.unlock] } :=
  ⟨ListEntriesHandler_reloads asciiLib editedWorld getList _ editedValues (by decide)
    (by decide) rfl (by rfl) (by decide), by decide⟩

end Dictionary
